import Mathlib

set_option linter.unusedSectionVars false
set_option linter.unusedVariables false

/-!
# Verification of the bevy_northstar component surface and pathfinding model

This development embeds the component declarations of `src/components.rs` and
`src/components/debug_components.rs` (structures, enums, constructors and
builder methods) as Lean definitions, and models the parts of the engine that
the repository only declares (the flat A* search, the partial-path policy, the
per-tick collision state machine, and the agent-grid relationship maintenance)
from the specification, faithful to its words.  Claims about the repository
are then stated and settled as theorems over these definitions.
-/

namespace BevyNorthstar

/-! ## Source-translated data (src/components.rs)

`UVec3` is bevy's unsigned 3-vector; coordinates are used only as data here
(no wrapping arithmetic occurs in the translated code), so `Nat` components
are an exact model of the declarations involved. -/

/-- `bevy::math::UVec3`, as used by the components in `src/components.rs`. -/
structure UVec3 where
  x : Nat
  y : Nat
  z : Nat
deriving DecidableEq, Repr

/-- `UVec3::new(x, y, z)`. -/
def UVec3.new (x y z : Nat) : UVec3 := ⟨x, y, z⟩

/-- `PathfindMode` from `src/components.rs` (lines 25-35): `Refined` carries
the `#[default]` attribute. -/
inductive PathfindMode where
  | Refined
  | Coarse
  | AStar
deriving DecidableEq, Repr

/-- The `#[default]` attribute on `PathfindMode::Refined`. -/
instance : Inhabited PathfindMode := ⟨PathfindMode.Refined⟩

/-- The `Pathfind` request component from `src/components.rs` (lines 39-49).
The Rust field `partial` is a Lean keyword and is embedded as `allowPartial`. -/
structure Pathfind where
  goal : UVec3
  allowPartial : Bool
  mode : PathfindMode
deriving DecidableEq, Repr

/-- `#[derive(Default)]` on `Pathfind`: zeroed goal, `false` flag, default mode. -/
def Pathfind.default : Pathfind :=
  { goal := UVec3.new 0 0 0, allowPartial := false, mode := (Inhabited.default : PathfindMode) }

instance : Inhabited Pathfind := ⟨Pathfind.default⟩

/-- `Pathfind::new(goal)` — `Pathfind { goal, ..Default::default() }`. -/
def Pathfind.new (goal : UVec3) : Pathfind :=
  { Pathfind.default with goal := goal }

/-- `Pathfind::new_2d(x, y)` — goal `UVec3::new(x, y, 0)` with defaults. -/
def Pathfind.new_2d (x y : Nat) : Pathfind :=
  { Pathfind.default with goal := UVec3.new x y 0 }

/-- `Pathfind::new_3d(x, y, z)` — goal `UVec3::new(x, y, z)` with defaults. -/
def Pathfind.new_3d (x y z : Nat) : Pathfind :=
  { Pathfind.default with goal := UVec3.new x y z }

/-- `Pathfind::mode(self, mode)` builder method. -/
def Pathfind.withMode (p : Pathfind) (mode : PathfindMode) : Pathfind :=
  { p with mode := mode }

/-- `Pathfind::partial(self)` builder method: sets the flag to `true`. -/
def Pathfind.withPartial (p : Pathfind) : Pathfind :=
  { p with allowPartial := true }

/-- The `NextPos` component (`src/components.rs` line 111). -/
structure NextPos where
  pos : UVec3
deriving DecidableEq, Repr

/-- The `AgentPos` component (`src/components.rs` line 18). -/
structure AgentPos where
  pos : UVec3
deriving DecidableEq, Repr

/-! ## Failure markers (src/components.rs lines 158-178)

The source declares three independent zero-sized marker components,
`AvoidanceFailed`, `PathfindingFailed` and `RerouteFailed`, each stored
per-entity in a sparse set.  A unified `PathError` enum also naming
`NoPathFound` and `PathInvalidated` appears only inside a comment
("I want to switch to this in the future...", lines 129-156). -/

/-- The per-agent failure-marker state determined by the three marker
components actually declared in `src/components.rs`: each marker is an
independent component that is either present or absent on an entity. -/
structure FailureMarkers where
  avoidanceFailed : Bool
  pathfindingFailed : Bool
  rerouteFailed : Bool
deriving DecidableEq, Repr

/-- Names of the failure marker components declared (uncommented) in
`src/components.rs`. -/
def surfacedFailureMarkerNames : List String :=
  ["AvoidanceFailed", "PathfindingFailed", "RerouteFailed"]

/-- The four error kinds the specification claims are surfaced
(spec section 7); follows the spec's words, for comparison with
`surfacedFailureMarkerNames`. -/
def specClaimedErrorKindNames : List String :=
  ["NoPathFound", "PathInvalidated", "AvoidanceFailed", "RerouteFailed"]

/-- Number of markers simultaneously present in a marker state. -/
def markerCount (m : FailureMarkers) : Nat :=
  (if m.avoidanceFailed then 1 else 0) +
    (if m.pathfindingFailed then 1 else 0) +
    (if m.rerouteFailed then 1 else 0)

/-- All eight presence/absence combinations of the three markers. -/
def allMarkerStates : List FailureMarkers :=
  [⟨false, false, false⟩, ⟨false, false, true⟩, ⟨false, true, false⟩,
    ⟨false, true, true⟩, ⟨true, false, false⟩, ⟨true, false, true⟩,
    ⟨true, true, false⟩, ⟨true, true, true⟩]

/-- Entities are indices, as in the ECS. -/
abbrev Entity := Nat

/-- No failure marker present (the default state of an entity). -/
def noMarkers : FailureMarkers := ⟨false, false, false⟩

/-- Which marker component an insertion targets. -/
inductive MarkerKind where
  | avoidance
  | pathfinding
  | reroute
deriving DecidableEq, Repr

/-- Set one marker in a marker state. -/
def setMarker (m : FailureMarkers) : MarkerKind → FailureMarkers
  | MarkerKind.avoidance => { m with avoidanceFailed := true }
  | MarkerKind.pathfinding => { m with pathfindingFailed := true }
  | MarkerKind.reroute => { m with rerouteFailed := true }

/-- The failure markers of every entity: marker components are per-entity
(sparse-set) state. -/
def MarkerWorld := Entity → FailureMarkers

/-- Inserting a marker component on entity `e`: agent-local mutation. -/
def insertMarker (w : MarkerWorld) (e : Entity) (k : MarkerKind) : MarkerWorld :=
  fun e' => if e' = e then setMarker (w e') k else w e'

/-- Removing all failure markers from entity `e` (the caller-side recovery
the marker docs describe: handle the failure, then the entity can be pathed
again). -/
def clearMarkers (w : MarkerWorld) (e : Entity) : MarkerWorld :=
  fun e' => if e' = e then noMarkers else w e'

/-! ## Per-tick collision/reroute state machine

Modelled from the spec: section 4.7 gives the states and transitions
(`Following -> Blocked -> LocalAvoidance -> AvoidanceFailed -> RerouteFailed`);
the state machine itself (the plugin's `pathfind`/`reroute_path` systems) is
absent from `src/`.  Two transitions are pinned by the source doc comments in
`src/components.rs`: the `AvoidanceFailed` marker "is handled by the
`NorthstarPlugin` `reroute_path` system" (lines 158-160), so each tick the
plugin attempts a reroute from that state (success resumes following, failure
escalates to `RerouteFailed`); and `PathfindingFailed` is retried "every
frame" (lines 165-167).  `RerouteFailed` must be handled by the caller's own
system (lines 172-178). -/

/-- The per-agent statuses of the collision/reroute state machine. -/
inductive AgentStatus where
  | following
  | blocked
  | localAvoidance
  | avoidanceFailed
  | rerouteFailed
  | pathfindingFailed
deriving DecidableEq, Repr

/-- The tick-local facts the transition depends on: whether the next cell is
blocked, whether a local detour was found, whether bounded avoidance attempts
remain, and whether a reroute / fresh pathfind succeeded this tick. -/
structure TickInput where
  nextCellBlocked : Bool
  detourFound : Bool
  attemptsRemain : Bool
  rerouteFound : Bool
  pathfindFound : Bool
deriving DecidableEq, Repr

/-- Modelled from the spec: one tick-driven transition of the collision and
reroute state machine (spec section 4.7, with the `AvoidanceFailed` and
`PathfindingFailed` transitions taken from the source doc comments on those
markers, which say the plugin handles them automatically each tick). -/
def tickStep : AgentStatus → TickInput → AgentStatus
  | AgentStatus.following, i =>
      if i.nextCellBlocked then AgentStatus.blocked else AgentStatus.following
  | AgentStatus.blocked, i =>
      if i.detourFound then AgentStatus.following
      else if i.attemptsRemain then AgentStatus.localAvoidance
      else AgentStatus.avoidanceFailed
  | AgentStatus.localAvoidance, i =>
      if i.detourFound then AgentStatus.following
      else if i.attemptsRemain then AgentStatus.localAvoidance
      else AgentStatus.avoidanceFailed
  | AgentStatus.avoidanceFailed, i =>
      if i.rerouteFound then AgentStatus.following else AgentStatus.rerouteFailed
  | AgentStatus.rerouteFailed, _ => AgentStatus.rerouteFailed
  | AgentStatus.pathfindingFailed, i =>
      if i.pathfindFound then AgentStatus.following else AgentStatus.pathfindingFailed

/-- Iterated tick-driven transitions. -/
def runTicks (st : AgentStatus) (is : List TickInput) : AgentStatus :=
  is.foldl tickStep st

/-! ## Agent-grid relationship (src/components.rs lines 191-209)

The source declares `AgentOfGrid(Entity)` with
`#[relationship(relationship_target = GridAgents)]` and `GridAgents(Vec<Entity>)`
with `#[relationship_target(relationship = AgentOfGrid, linked_spawn)]`.
Modelled from the spec: the maintenance of the pair (performed by the ECS
relationship machinery, outside this repository) keeps, for each grid, the
list of its agents, and for each agent its owning grid; every mutation goes
through a single path that updates both sides (spec section 9). -/

/-- Both sides of the agent-grid relationship: per-agent `AgentOfGrid`
back-reference and per-grid `GridAgents` forward list. -/
structure RelWorld where
  agentOf : Entity → Option Entity
  gridAgents : Entity → List Entity

/-- Bidirectional consistency: an agent is listed under a grid exactly when
it stores that grid, and no grid lists an agent twice. -/
def RelWorld.Consistent (w : RelWorld) : Prop :=
  (∀ a g, w.agentOf a = some g ↔ a ∈ w.gridAgents g) ∧
    ∀ g, (w.gridAgents g).Nodup

/-- Drop agent `a` from every grid's list. -/
def RelWorld.dropAgent (w : RelWorld) (a : Entity) : Entity → List Entity :=
  fun g => (w.gridAgents g).filter (fun x => x ≠ a)

/-- The single mutation path that relates agent `a` to grid `g`: the
back-reference is set and the forward lists are updated together. -/
def RelWorld.insertAgent (w : RelWorld) (a g : Entity) : RelWorld :=
  { agentOf := fun a' => if a' = a then some g else w.agentOf a',
    gridAgents := fun g' =>
      if g' = g then a :: w.dropAgent a g' else w.dropAgent a g' }

/-- The single mutation path that removes agent `a`: the back-reference is
cleared and the agent leaves every forward list. -/
def RelWorld.removeAgent (w : RelWorld) (a : Entity) : RelWorld :=
  { agentOf := fun a' => if a' = a then none else w.agentOf a',
    gridAgents := w.dropAgent a }

/-- The world with no relationships. -/
def RelWorld.empty : RelWorld := ⟨fun _ => none, fun _ => []⟩

/-! ## Debug components (src/components/debug_components.rs)

`DebugTilemapType` lives in the repository's `debug` module, which is not
under `src/`; only the two variants used by the builder (`Square`,
`Isometric`) are referenced, and they are embedded here. -/

/-- `crate::debug::DebugTilemapType` (variants referenced from
`debug_components.rs`). -/
inductive DebugTilemapType where
  | Square
  | Isometric
deriving DecidableEq, Repr

/-- The `DebugGrid` component (`debug_components.rs` lines 72-91). -/
structure DebugGrid where
  tile_width : Nat
  tile_height : Nat
  depth : Nat
  map_type : DebugTilemapType
  draw_chunks : Bool
  draw_cells : Bool
  draw_entrances : Bool
  draw_cached_paths : Bool
  show_connections_on_hover : Bool
deriving DecidableEq, Repr

/-- The `DebugGridBuilder` struct (`debug_components.rs` lines 187-197). -/
structure DebugGridBuilder where
  tile_width : Nat
  tile_height : Nat
  depth : Nat
  tilemap_type : DebugTilemapType
  draw_chunks : Bool
  draw_cells : Bool
  draw_entrances : Bool
  draw_cached_paths : Bool
  show_connections_on_hover : Bool
deriving DecidableEq, Repr

/-- `DebugGridBuilder::new(tile_width, tile_height)` (lines 201-213). -/
def DebugGridBuilder.new (tile_width tile_height : Nat) : DebugGridBuilder :=
  { tile_width := tile_width
    tile_height := tile_height
    depth := 0
    tilemap_type := DebugTilemapType.Square
    draw_chunks := false
    draw_cells := false
    draw_entrances := false
    draw_cached_paths := false
    show_connections_on_hover := false }

/-- `DebugGridBuilder::set_depth`. -/
def DebugGridBuilder.set_depth (b : DebugGridBuilder) (depth : Nat) : DebugGridBuilder :=
  { b with depth := depth }

/-- `DebugGridBuilder::tilemap_type`. -/
def DebugGridBuilder.withTilemapType (b : DebugGridBuilder)
    (t : DebugTilemapType) : DebugGridBuilder :=
  { b with tilemap_type := t }

/-- `DebugGridBuilder::isometric`. -/
def DebugGridBuilder.isometric (b : DebugGridBuilder) : DebugGridBuilder :=
  { b with tilemap_type := DebugTilemapType.Isometric }

/-- `DebugGridBuilder::enable_chunks`. -/
def DebugGridBuilder.enable_chunks (b : DebugGridBuilder) : DebugGridBuilder :=
  { b with draw_chunks := true }

/-- `DebugGridBuilder::enable_cells`. -/
def DebugGridBuilder.enable_cells (b : DebugGridBuilder) : DebugGridBuilder :=
  { b with draw_cells := true }

/-- `DebugGridBuilder::enable_entrances`. -/
def DebugGridBuilder.enable_entrances (b : DebugGridBuilder) : DebugGridBuilder :=
  { b with draw_entrances := true }

/-- `DebugGridBuilder::enable_cached_paths`. -/
def DebugGridBuilder.enable_cached_paths (b : DebugGridBuilder) : DebugGridBuilder :=
  { b with draw_cached_paths := true }

/-- `DebugGridBuilder::enable_show_connections_on_hover`. -/
def DebugGridBuilder.enable_show_connections_on_hover
    (b : DebugGridBuilder) : DebugGridBuilder :=
  { b with show_connections_on_hover := true }

/-- `DebugGridBuilder::build` (lines 272-284): copies every configured field
into the `DebugGrid` component. -/
def DebugGridBuilder.build (b : DebugGridBuilder) : DebugGrid :=
  { tile_width := b.tile_width
    tile_height := b.tile_height
    depth := b.depth
    map_type := b.tilemap_type
    draw_chunks := b.draw_chunks
    draw_cells := b.draw_cells
    draw_entrances := b.draw_entrances
    draw_cached_paths := b.draw_cached_paths
    show_connections_on_hover := b.show_connections_on_hover }

/-! ## Graph search layer

Modelled from the spec: the pathfinding algorithms themselves (the flat
full-grid A* of `PathfindMode::AStar`, spec section 4.5, and the search
machinery of sections 4.4-4.6) are absent from `src/`; only the mode selector
and request components are declared there.  The search is developed over an
abstract successor function so the grid instantiates it below.  Costs follow
the spec's cell-cost model: entering a cell pays that cell's traversal cost,
and a path's total cost is the sum over entered cells. -/

namespace Search

variable {V : Type} [DecidableEq V]

/-- Endpoint of a step sequence starting at `s`: the last entered cell, or
`s` itself for the empty sequence. -/
def endOf (s : V) (p : List V) : V := p.getLastD s

/-- `chainB nbrs u p` holds when each step of `p` moves to a successor of
the previous cell, starting from `u`. -/
def chainB (nbrs : V → List V) : V → List V → Bool
  | _, [] => true
  | u, v :: rest => decide (v ∈ nbrs u) && chainB nbrs v rest

/-- A path from `s` to `t`: the ordered sequence of cells entered after `s`
(the first element is the first step after `s`), each a successor of its
predecessor, ending at `t`. -/
def IsPath (nbrs : V → List V) (s : V) (p : List V) (t : V) : Prop :=
  chainB nbrs s p = true ∧ endOf s p = t

instance (nbrs : V → List V) (s : V) (p : List V) (t : V) :
    Decidable (IsPath nbrs s p t) := by
  unfold IsPath
  infer_instance

/-- Total cost of a path under the cell-cost model: sum of the traversal
costs of the entered cells. -/
def pathCost (cost : V → Nat) (p : List V) : Nat := (p.map cost).sum

/-- A frontier entry of the search: a reached cell, the accumulated cost `g`
of the recorded path, and the path itself. -/
structure Entry (V : Type) where
  node : V
  g : Nat
  path : List V

/-- Priority of an entry: accumulated cost plus heuristic. -/
def fval (h : V → Nat) (e : Entry V) : Nat := e.g + h e.node

/-- Remove an entry of minimal priority from the frontier (the standard
best-first extraction); returns the entry and the remaining frontier. -/
def popMin (h : V → Nat) : List (Entry V) → Option (Entry V × List (Entry V))
  | [] => none
  | e :: rest =>
    match popMin h rest with
    | none => some (e, [])
    | some (e', rest') =>
      if fval h e ≤ fval h e' then some (e, rest) else some (e', e :: rest')

/-- Modelled from the spec: the A* main loop (spec section 4.5, `AStar`:
"runs a single full-grid A* from start to goal using the same cost model").
Fueled best-first search with a closed list: extract the minimum-priority
entry; return its path on reaching the goal; skip it if its cell is already
closed; otherwise close the cell and extend the frontier with its
successors. -/
def astarLoop (nbrs : V → List V) (cost : V → Nat) (h : V → Nat) (goal : V) :
    Nat → List (Entry V) → List (V × Nat) → Option (List V × Nat)
  | 0, _, _ => none
  | fuel+1, F, C =>
    match popMin h F with
    | none => none
    | some (e, F') =>
      if e.node = goal then some (e.path, e.g)
      else if e.node ∈ C.map Prod.fst then astarLoop nbrs cost h goal fuel F' C
      else
        astarLoop nbrs cost h goal fuel
          (F' ++ (nbrs e.node).map (fun v => ⟨v, e.g + cost v, e.path ++ [v]⟩))
          ((e.node, e.g) :: C)

/-- Largest successor-list length over a universe of cells. -/
def maxDeg (nbrs : V → List V) (univ : List V) : Nat :=
  (univ.map (fun u => (nbrs u).length)).foldr max 0

/-- Enough fuel for the loop to terminate: every expansion closes a fresh
cell of the universe and each iteration consumes one frontier entry. -/
def astarFuel (nbrs : V → List V) (univ : List V) : Nat :=
  2 + univ.length * (maxDeg nbrs univ + 1)

/-- Modelled from the spec: full-grid A* from `s` to `goal` (spec section
4.5); `univ` lists every cell the successor function can produce. -/
def astar (nbrs : V → List V) (cost : V → Nat) (h : V → Nat) (univ : List V)
    (s goal : V) : Option (List V × Nat) :=
  astarLoop nbrs cost h goal (astarFuel nbrs (s :: univ)) [⟨s, 0, []⟩] []

/-- One round of reachability expansion: keep the current cells and add
every successor, removing duplicates. -/
def expandR (nbrs : V → List V) (cur : List V) : List V :=
  (cur ++ cur.flatMap nbrs).dedup

/-- Cells reachable from `s` in at most `n` steps. -/
def reachN (nbrs : V → List V) : Nat → V → List V
  | 0, s => [s]
  | n+1, s => expandR nbrs (reachN nbrs n s)

/-- All cells reachable from `s`: `univ.length + 1` rounds saturate, since a
duplicate-free path through `univ` takes at most `univ.length` steps. -/
def reachableList (nbrs : V → List V) (univ : List V) (s : V) : List V :=
  reachN nbrs (univ.length + 1) s

/-- Decidable connectivity under the walkability relation. -/
def connectedB (nbrs : V → List V) (univ : List V) (s t : V) : Bool :=
  decide (t ∈ reachableList nbrs univ s)

/-- Every step sequence of length at most `n` out of `s` (the search space
of the exhaustive search). -/
def pathsFrom (nbrs : V → List V) : Nat → V → List (List V)
  | 0, _ => [[]]
  | n+1, s => [] :: (nbrs s).flatMap (fun v => (pathsFrom nbrs n v).map (fun p => v :: p))

/-- Minimum of `d :: l`. -/
def listMinD : List Nat → Nat → Nat
  | [], d => d
  | a :: as, d => min a (listMinD as d)

/-- Minimum of a list, `none` when empty. -/
def listMin? : List Nat → Option Nat
  | [] => none
  | a :: as => some (listMinD as a)

/-- The true minimum path cost computed by exhaustive search: minimize the
cell-cost total over every path from `s` to `t` of at most `univ.length`
steps (loops only add cost, so these suffice). -/
def exhaustiveMinCost (nbrs : V → List V) (cost : V → Nat) (univ : List V)
    (s t : V) : Option Nat :=
  listMin?
    (((pathsFrom nbrs univ.length s).filter (fun p => decide (endOf s p = t))).map
      (pathCost cost))

/-- Element of `d :: l` minimizing `f`, preferring `d` and then earlier
elements on ties. -/
def chooseMinBy (f : V → Nat) : V → List V → V
  | d, [] => d
  | d, a :: as => if f d ≤ f (chooseMinBy f a as) then d else chooseMinBy f a as

/-- Modelled from the spec: the "closest approach" of the partial-path
policy (spec section 4.6) — among the cells the search can reach from `s`,
the one with minimum heuristic distance to the goal, the start itself when
it already attains the minimum. -/
def closestApproach (nbrs : V → List V) (univ : List V) (hgoal : V → Nat)
    (s : V) : V :=
  chooseMinBy hgoal s (reachableList nbrs univ s)

/-- Invariant of the A* loop state: sound frontier entries; settled cells
carry attained, minimal costs; every successor of a settled cell that is not
itself settled has an exact frontier entry; the start is settled or on the
frontier; the goal is never settled; all touched cells lie in the universe;
settled cells are distinct. -/
structure AInv (nbrs : V → List V) (cost h : V → Nat) (s goal : V)
    (univ : List V) (F : List (Entry V)) (C : List (V × Nat)) : Prop where
  paths : ∀ e ∈ F, IsPath nbrs s e.path e.node ∧ pathCost cost e.path = e.g
  settledAtt : ∀ q ∈ C, ∃ P, IsPath nbrs s P q.1 ∧ pathCost cost P = q.2
  settledMin : ∀ q ∈ C, ∀ P, IsPath nbrs s P q.1 → q.2 ≤ pathCost cost P
  front : ∀ q ∈ C, ∀ v ∈ nbrs q.1, v ∉ C.map Prod.fst →
    ∃ e ∈ F, e.node = v ∧ e.g = q.2 + cost v
  start : s ∈ C.map Prod.fst ∨ (⟨s, 0, []⟩ : Entry V) ∈ F
  goalOpen : goal ∉ C.map Prod.fst
  fNodes : ∀ e ∈ F, e.node ∈ s :: univ
  cNodes : ∀ q ∈ C, q.1 ∈ s :: univ
  cNodup : (C.map Prod.fst).Nodup

/-- Termination measure of the A* loop: frontier entries still to pop plus
capacity for the expansions of the cells not yet settled. -/
def ameasure (nbrs : V → List V) (univ : List V) (F : List (Entry V))
    (C : List (V × Nat)) : Nat :=
  F.length + (univ.length - C.length) * (maxDeg nbrs univ + 1)

end Search

/-! ## Grid model

Modelled from the spec: the `Grid` itself (`crate::grid::Grid`) is not under
`src/`; the data model follows spec section 3 — a cell has a walkable flag, a
traversal cost and allowed movement directions; the grid is a bounded 3-axis
space of such cells.  A step moves to an adjacent cell (Chebyshev distance
one), must enter a walkable in-bounds cell, and must be an allowed direction
of the source cell. -/

/-- Per-cell navigation data (spec section 3, `NavCell` of `crate::nav`):
walkable flag, traversal cost, and which movement directions (integer
deltas) are allowed out of the cell. -/
structure NavCell where
  walkable : Bool
  cost : Nat
  dirAllowed : Int → Int → Int → Bool

/-- The navigable grid: bounded dimensions and per-cell navigation data. -/
structure Grid where
  width : Nat
  height : Nat
  depth : Nat
  cells : UVec3 → NavCell

/-- Chebyshev distance between cells. -/
def chebDist (a b : UVec3) : Nat :=
  max (Nat.dist a.x b.x) (max (Nat.dist a.y b.y) (Nat.dist a.z b.z))

/-- Every in-bounds cell of the grid. -/
def cellsList (G : Grid) : List UVec3 :=
  (List.range G.width).flatMap (fun x =>
    (List.range G.height).flatMap (fun y =>
      (List.range G.depth).map (fun z => UVec3.new x y z)))

/-- Successors of a cell: in-bounds walkable cells one Chebyshev step away
in an allowed direction. -/
def Grid.nbrs (G : Grid) (u : UVec3) : List UVec3 :=
  (cellsList G).filter (fun v =>
    (G.cells v).walkable && chebDist u v == 1 &&
      (G.cells u).dirAllowed ((v.x : Int) - u.x) ((v.y : Int) - u.y) ((v.z : Int) - u.z))

/-- Traversal cost of entering a cell. -/
def Grid.cost (G : Grid) (v : UVec3) : Nat := (G.cells v).cost

/-- Costs of the walkable in-bounds cells. -/
def walkableCosts (G : Grid) : List Nat :=
  ((cellsList G).filter (fun c => (G.cells c).walkable)).map (fun c => (G.cells c).cost)

/-- Minimum cell cost of the grid (`1` for a grid with no walkable cell). -/
def minCellCost (G : Grid) : Nat :=
  match walkableCosts G with
  | [] => 1
  | c :: cs => Search.listMinD cs c

/-- The admissible search heuristic of spec section 4.4: Chebyshev distance
to the goal scaled by the minimum cell cost. -/
def gridHeuristic (G : Grid) (goal v : UVec3) : Nat :=
  chebDist v goal * minCellCost G

/-- Well-formed grid: every cell's traversal cost is at least one (spec
section 3: "traversal cost (>= 1)"). -/
def Grid.WF (G : Grid) : Prop :=
  ∀ c ∈ cellsList G, 1 ≤ (G.cells c).cost

instance (G : Grid) : Decidable G.WF := by
  unfold Grid.WF
  infer_instance

/-- `PathfindMode::AStar`: the single full-grid A* from start to goal under
the grid's cost model. -/
def gridAStar (G : Grid) (s goal : UVec3) : Option (List UVec3 × Nat) :=
  Search.astar G.nbrs G.cost (gridHeuristic G goal) (cellsList G) s goal

/-- Connectivity of two cells under the grid's walkability. -/
def gridConnectedB (G : Grid) (s t : UVec3) : Bool :=
  Search.connectedB G.nbrs (cellsList G) s t

/-- True minimum path cost between two cells, by exhaustive search. -/
def gridExhaustiveMinCost (G : Grid) (s t : UVec3) : Option Nat :=
  Search.exhaustiveMinCost G.nbrs G.cost (cellsList G) s t

/-- The reachable cell closest (by the search heuristic) to the goal. -/
def gridClosestApproach (G : Grid) (s goal : UVec3) : UVec3 :=
  Search.closestApproach G.nbrs (cellsList G) (gridHeuristic G goal) s

/-- Modelled from the spec: the best-effort result of the partial-path
policy — the path to the closest approach (spec section 4.6). -/
def gridPartialPath (G : Grid) (s goal : UVec3) : Option (List UVec3) :=
  (gridAStar G s (gridClosestApproach G s goal)).map Prod.fst

/-- Modelled from the spec: the unified error type of the pathfind request
(spec sections 6 and 7); in `src/components.rs` it appears only inside a
commented-out future plan (lines 129-156). -/
inductive PathError where
  | NoPathFound
  | PathInvalidated
  | AvoidanceFailed
  | RerouteFailed
deriving DecidableEq, Repr

/-- Modelled from the spec: the pathfind request operation of spec section 6
(`request_path(agent, goal, mode, partial) -> Result<Path, PathError>`).
The request-side data (goal, mode, partial flag) is the `Pathfind` component
of `src/components.rs`; the systems that serve the request are absent from
`src/`.  Every mode produces an ordered cell path (the mode selects the
refinement strategy inside the absent Planner/Refiner and does not change
the interface shape); with the partial flag, an unreachable goal yields the
path to the closest approach instead of failing. -/
def request_path (G : Grid) (agentPos goal : UVec3) (mode : PathfindMode)
    (allowPartial : Bool) : Except PathError (List UVec3) :=
  match gridAStar G agentPos goal with
  | some (p, _) => Except.ok p
  | none =>
    if allowPartial then
      match gridPartialPath G agentPos goal with
      | some p => Except.ok p
      | none => Except.error PathError.NoPathFound
    else Except.error PathError.NoPathFound

/-- A fully walkable 2 by 2 single-layer grid with unit costs. -/
def exampleOpenGrid : Grid :=
  { width := 2
    height := 2
    depth := 1
    cells := fun _ =>
      { walkable := true, cost := 1, dirAllowed := fun _ _ _ => true } }

/-- A 4 by 1 corridor whose cell `(2,0,0)` is blocked, so `(3,0,0)` is
unreachable from `(0,0,0)` while `(1,0,0)` is the closest approach. -/
def exampleWallGrid : Grid :=
  { width := 4
    height := 1
    depth := 1
    cells := fun c =>
      { walkable := decide (c.x ≠ 2), cost := 1,
        dirAllowed := fun _ _ _ => true } }

/-! ## Supporting lemmas -/

namespace Search

variable {V : Type} [DecidableEq V]

/-- Unfolding a chain one step. -/
theorem chainB_cons (nbrs : V → List V) (u v : V) (p : List V) :
    chainB nbrs u (v :: p) = true ↔ v ∈ nbrs u ∧ chainB nbrs v p = true := by
  simp [chainB]

/-- The empty sequence ends at its start. -/
theorem endOf_nil (s : V) : endOf s ([] : List V) = s := rfl

/-- Endpoint of a nonempty sequence ignores the start. -/
theorem endOf_cons (s v : V) (p : List V) : endOf s (v :: p) = endOf v p :=
  List.getLastD_cons s v p

/-- The empty path connects a cell to itself. -/
theorem isPath_nil (nbrs : V → List V) (s t : V) :
    IsPath nbrs s [] t ↔ s = t := by
  simp [IsPath, chainB, endOf]

/-- Unfolding a path one step. -/
theorem isPath_cons (nbrs : V → List V) (s v t : V) (p : List V) :
    IsPath nbrs s (v :: p) t ↔ v ∈ nbrs s ∧ IsPath nbrs v p t := by
  simp [IsPath, chainB_cons, endOf_cons, and_assoc]

/-- Cost of the empty path. -/
theorem pathCost_nil (cost : V → Nat) : pathCost cost ([] : List V) = 0 := rfl

/-- Cost of a path one step at a time. -/
theorem pathCost_cons (cost : V → Nat) (v : V) (p : List V) :
    pathCost cost (v :: p) = cost v + pathCost cost p := by
  simp [pathCost]

/-- Cost is additive over concatenation. -/
theorem pathCost_append (cost : V → Nat) (p q : List V) :
    pathCost cost (p ++ q) = pathCost cost p + pathCost cost q := by
  simp [pathCost]

/-- Endpoint after appending one cell. -/
theorem endOf_concat (s v : V) (p : List V) : endOf s (p ++ [v]) = v := by
  simp [endOf]

/-- Extending a path by one successor step. -/
theorem isPath_concat (nbrs : V → List V) {s u : V} {p : List V}
    (hp : IsPath nbrs s p u) {v : V} (hv : v ∈ nbrs u) :
    IsPath nbrs s (p ++ [v]) v := by
  induction p generalizing s with
  | nil =>
    obtain rfl := (isPath_nil nbrs s u).mp hp
    exact (isPath_cons nbrs s v v []).mpr ⟨hv, (isPath_nil nbrs v v).mpr rfl⟩
  | cons w p ih =>
    obtain ⟨hw, hp'⟩ := (isPath_cons nbrs s w u p).mp hp
    exact (isPath_cons nbrs s w v (p ++ [v])).mpr ⟨hw, ih hp'⟩

/-- A path restricted to the part after an occurrence of `x`. -/
theorem isPath_suffix (nbrs : V → List V) {x t : V} {p1 p2 : List V} :
    ∀ {s : V}, IsPath nbrs s (p1 ++ x :: p2) t → IsPath nbrs x p2 t := by
  induction p1 with
  | nil =>
    intro s hp
    exact ((isPath_cons nbrs s x t p2).mp hp).2
  | cons w p1 ih =>
    intro s hp
    exact ih ((isPath_cons nbrs s w t _).mp hp).2

/-- Loop removal: every path contains a duplicate-free path with the same
endpoints and no greater cost, using only cells of the original. -/
theorem isPath_shrink (nbrs : V → List V) (cost : V → Nat) :
    ∀ (n : Nat) (p : List V), p.length ≤ n → ∀ (s t : V), IsPath nbrs s p t →
      ∃ p', IsPath nbrs s p' t ∧ pathCost cost p' ≤ pathCost cost p ∧
        (s :: p').Nodup ∧ p' ⊆ p := by
  intro n
  induction n with
  | zero =>
    intro p hlen s t hp
    have hnil : p = [] := List.length_eq_zero.mp (Nat.le_zero.mp hlen)
    subst hnil
    exact ⟨[], hp, Nat.le_refl _, List.nodup_singleton s, List.Subset.refl _⟩
  | succ n ih =>
    intro p hlen s t hp
    by_cases hs : s ∈ p
    · obtain ⟨p1, p2, rfl⟩ := List.append_of_mem hs
      have hp2 : IsPath nbrs s p2 t := isPath_suffix nbrs hp
      have hlen2 : p2.length ≤ n := by
        simp [List.length_append] at hlen
        omega
      obtain ⟨p', h1, h2, h3, h4⟩ := ih p2 hlen2 s t hp2
      refine ⟨p', h1, ?_, h3, fun x hx => ?_⟩
      · refine le_trans h2 ?_
        simp [pathCost_append, pathCost_cons]
        omega
      · exact List.mem_append.mpr (Or.inr (List.mem_cons_of_mem s (h4 hx)))
    · cases p with
      | nil => exact ⟨[], hp, Nat.le_refl _, List.nodup_singleton s, List.Subset.refl _⟩
      | cons v rest =>
        obtain ⟨hv, hrest⟩ := (isPath_cons nbrs s v t rest).mp hp
        have hlen2 : rest.length ≤ n := by
          simp at hlen
          omega
        obtain ⟨rest', h1, h2, h3, h4⟩ := ih rest hlen2 v t hrest
        refine ⟨v :: rest', (isPath_cons nbrs s v t rest').mpr ⟨hv, h1⟩, ?_, ?_, ?_⟩
        · simp only [pathCost_cons]
          omega
        · rw [List.nodup_cons]
          refine ⟨?_, h3⟩
          intro hsmem
          rcases List.mem_cons.mp hsmem with h | h'
          · exact hs (h ▸ List.mem_cons_self v rest)
          · exact hs (List.mem_cons_of_mem v (h4 h'))
        · intro x hx
          rcases List.mem_cons.mp hx with h | h'
          · exact h ▸ List.mem_cons_self v rest
          · exact List.mem_cons_of_mem v (h4 h')

/-- Every cell entered by a path lies in the successor universe. -/
theorem isPath_mem_univ (nbrs : V → List V) {univ : List V}
    (hU : ∀ u v, v ∈ nbrs u → v ∈ univ) :
    ∀ (p : List V) (s t : V), IsPath nbrs s p t → ∀ x ∈ p, x ∈ univ := by
  intro p
  induction p with
  | nil =>
    intro s t _ x hx
    simp at hx
  | cons v rest ih =>
    intro s t hp x hx
    obtain ⟨hv, hrest⟩ := (isPath_cons nbrs s v t rest).mp hp
    rcases List.mem_cons.mp hx with h | h'
    · exact h ▸ hU s v hv
    · exact ih v t hrest x h'

/-- The exhaustive search space contains exactly the chains of bounded
length. -/
theorem mem_pathsFrom (nbrs : V → List V) :
    ∀ (n : Nat) (s : V) (p : List V),
      p ∈ pathsFrom nbrs n s ↔ chainB nbrs s p = true ∧ p.length ≤ n := by
  intro n
  induction n with
  | zero =>
    intro s p
    constructor
    · intro hmem
      simp [pathsFrom] at hmem
      subst hmem
      exact ⟨rfl, Nat.le_refl _⟩
    · rintro ⟨_, hlen⟩
      have : p = [] := List.length_eq_zero.mp (Nat.le_zero.mp hlen)
      simp [pathsFrom, this]
  | succ n ih =>
    intro s p
    simp only [pathsFrom, List.mem_cons, List.mem_flatMap, List.mem_map]
    constructor
    · rintro (rfl | ⟨v, hv, q, hq, rfl⟩)
      · exact ⟨rfl, Nat.zero_le _⟩
      · obtain ⟨hchain, hlen⟩ := (ih v q).mp hq
        exact ⟨(chainB_cons nbrs s v q).mpr ⟨hv, hchain⟩,
          by simpa using Nat.succ_le_succ hlen⟩
    · rintro ⟨hchain, hlen⟩
      cases p with
      | nil => exact Or.inl rfl
      | cons v q =>
        obtain ⟨hv, hchain'⟩ := (chainB_cons nbrs s v q).mp hchain
        exact Or.inr ⟨v, hv, q, (ih v q).mpr ⟨hchain', by simpa using hlen⟩, rfl⟩

/-- `listMinD` is bounded by its default. -/
theorem listMinD_le_d (l : List Nat) (d : Nat) : listMinD l d ≤ d := by
  induction l with
  | nil => exact Nat.le_refl d
  | cons a as ih => exact le_trans (Nat.min_le_right a _) ih

/-- `listMinD` is bounded by every list element. -/
theorem listMinD_le_mem (l : List Nat) (d : Nat) : ∀ a ∈ l, listMinD l d ≤ a := by
  induction l with
  | nil =>
    intro a ha
    simp at ha
  | cons b as ih =>
    intro a ha
    rcases List.mem_cons.mp ha with h | h'
    · rw [h]
      simp only [listMinD]
      exact Nat.min_le_left _ _
    · refine le_trans ?_ (ih a h')
      simp only [listMinD]
      exact Nat.min_le_right _ _

/-- `listMinD` is its default or a list element. -/
theorem listMinD_eq_or_mem (l : List Nat) (d : Nat) :
    listMinD l d = d ∨ listMinD l d ∈ l := by
  induction l with
  | nil => exact Or.inl rfl
  | cons a as ih =>
    rcases Nat.le_total a (listMinD as d) with h | h
    · have ha : listMinD (a :: as) d = a := by
        simp [listMinD, Nat.min_eq_left h]
      rw [ha]
      exact Or.inr (List.mem_cons_self a as)
    · have ha : listMinD (a :: as) d = listMinD as d := by
        simp [listMinD, Nat.min_eq_right h]
      rw [ha]
      rcases ih with h' | h'
      · exact Or.inl h'
      · exact Or.inr (List.mem_cons_of_mem a h')

/-- A computed minimum is attained and minimal. -/
theorem listMin?_spec {l : List Nat} {c : Nat} (h : listMin? l = some c) :
    c ∈ l ∧ ∀ a ∈ l, c ≤ a := by
  cases l with
  | nil => simp [listMin?] at h
  | cons a as =>
    simp only [listMin?, Option.some.injEq] at h
    subst h
    constructor
    · rcases listMinD_eq_or_mem as a with h' | h'
      · rw [h']
        exact List.mem_cons_self a as
      · exact List.mem_cons_of_mem a h'
    · intro x hx
      rcases List.mem_cons.mp hx with h' | h'
      · exact h' ▸ listMinD_le_d as a
      · exact listMinD_le_mem as a x h'

/-- A nonempty list has a minimum. -/
theorem listMin?_isSome (l : List Nat) (hne : l ≠ []) : ∃ c, listMin? l = some c := by
  cases l with
  | nil => exact absurd rfl hne
  | cons a as => exact ⟨listMinD as a, rfl⟩

/-- The exhaustive minimum is attained by a real path. -/
theorem exhaustiveMinCost_attained {nbrs : V → List V} {cost : V → Nat}
    {univ : List V} {s t : V} {c : Nat}
    (h : exhaustiveMinCost nbrs cost univ s t = some c) :
    ∃ p, IsPath nbrs s p t ∧ pathCost cost p = c := by
  obtain ⟨hmem, _⟩ := listMin?_spec h
  simp only [List.mem_map, List.mem_filter, decide_eq_true_eq] at hmem
  obtain ⟨p, ⟨hpf, hend⟩, hcost⟩ := hmem
  obtain ⟨hchain, _⟩ := (mem_pathsFrom nbrs univ.length s p).mp hpf
  exact ⟨p, ⟨hchain, hend⟩, hcost⟩

/-- The exhaustive minimum lower-bounds the cost of every path, of any
length: loop removal brings any path into the bounded search space. -/
theorem exhaustiveMinCost_min {nbrs : V → List V} {cost : V → Nat}
    {univ : List V} {s t : V} {c : Nat}
    (hU : ∀ u v, v ∈ nbrs u → v ∈ univ)
    (h : exhaustiveMinCost nbrs cost univ s t = some c) :
    ∀ q, IsPath nbrs s q t → c ≤ pathCost cost q := by
  intro q hq
  obtain ⟨_, hmin⟩ := listMin?_spec h
  obtain ⟨p', h1, h2, h3, h4⟩ :=
    isPath_shrink nbrs cost q.length q (Nat.le_refl _) s t hq
  have hsub : p' ⊆ univ := fun x hx => isPath_mem_univ nbrs hU q s t hq x (h4 hx)
  have hnd : p'.Nodup := (List.nodup_cons.mp h3).2
  have hlen : p'.length ≤ univ.length := (hnd.subperm hsub).length_le
  have hmem : pathCost cost p' ∈ ((pathsFrom nbrs univ.length s).filter
      (fun p => decide (endOf s p = t))).map (pathCost cost) := by
    refine List.mem_map.mpr ⟨p', List.mem_filter.mpr ⟨?_, ?_⟩, rfl⟩
    · exact (mem_pathsFrom nbrs univ.length s p').mpr ⟨h1.1, hlen⟩
    · exact decide_eq_true h1.2
  exact le_trans (hmin _ hmem) h2

/-- When any path exists, the exhaustive search returns a minimum. -/
theorem exhaustiveMinCost_some {nbrs : V → List V} {cost : V → Nat}
    {univ : List V} {s t : V} {q : List V}
    (hU : ∀ u v, v ∈ nbrs u → v ∈ univ) (hq : IsPath nbrs s q t) :
    ∃ c, exhaustiveMinCost nbrs cost univ s t = some c := by
  obtain ⟨p', h1, _, h3, h4⟩ :=
    isPath_shrink nbrs cost q.length q (Nat.le_refl _) s t hq
  have hsub : p' ⊆ univ := fun x hx => isPath_mem_univ nbrs hU q s t hq x (h4 hx)
  have hnd : p'.Nodup := (List.nodup_cons.mp h3).2
  have hlen : p'.length ≤ univ.length := (hnd.subperm hsub).length_le
  have hmem : pathCost cost p' ∈ ((pathsFrom nbrs univ.length s).filter
      (fun p => decide (endOf s p = t))).map (pathCost cost) := by
    refine List.mem_map.mpr ⟨p', List.mem_filter.mpr ⟨?_, ?_⟩, rfl⟩
    · exact (mem_pathsFrom nbrs univ.length s p').mpr ⟨h1.1, hlen⟩
    · exact decide_eq_true h1.2
  exact listMin?_isSome _ (List.ne_nil_of_mem hmem)

/-- Expansion keeps the current cells. -/
theorem subset_expandR (nbrs : V → List V) (cur : List V) :
    cur ⊆ expandR nbrs cur := by
  intro x hx
  simp only [expandR, List.mem_dedup, List.mem_append]
  exact Or.inl hx

/-- Expansion adds every successor of a current cell. -/
theorem mem_expandR_step (nbrs : V → List V) {cur : List V} {u v : V}
    (hu : u ∈ cur) (hv : v ∈ nbrs u) : v ∈ expandR nbrs cur := by
  simp only [expandR, List.mem_dedup, List.mem_append, List.mem_flatMap]
  exact Or.inr ⟨u, hu, hv⟩

/-- The start is always reachable. -/
theorem self_mem_reachN (nbrs : V → List V) (n : Nat) (s : V) :
    s ∈ reachN nbrs n s := by
  induction n with
  | zero => simp [reachN]
  | succ n ih => exact subset_expandR nbrs _ ih

/-- Reachability rounds are monotone. -/
theorem reachN_mono (nbrs : V → List V) (s : V) :
    ∀ (n m : Nat), m ≤ n → reachN nbrs m s ⊆ reachN nbrs n s := by
  intro n
  induction n with
  | zero =>
    intro m h
    have : m = 0 := Nat.le_zero.mp h
    subst this
    exact List.Subset.refl _
  | succ n ih =>
    intro m h
    by_cases hm : m = n + 1
    · subst hm
      exact List.Subset.refl _
    · have h' : m ≤ n := by omega
      exact (ih m h').trans (subset_expandR nbrs _)

/-- Every cell produced by the reachability rounds has a real path. -/
theorem reachN_sound (nbrs : V → List V) :
    ∀ (n : Nat) (s v : V), v ∈ reachN nbrs n s → ∃ p, IsPath nbrs s p v := by
  intro n
  induction n with
  | zero =>
    intro s v hv
    simp [reachN] at hv
    exact ⟨[], (isPath_nil nbrs s v).mpr hv.symm⟩
  | succ n ih =>
    intro s v hv
    simp only [reachN, expandR, List.mem_dedup, List.mem_append,
      List.mem_flatMap] at hv
    rcases hv with h | ⟨u, hu, hvu⟩
    · exact ih s v h
    · obtain ⟨p, hp⟩ := ih s u hu
      exact ⟨p ++ [v], isPath_concat nbrs hp hvu⟩

/-- Splitting a path at its final step. -/
theorem isPath_concat_decomp (nbrs : V → List V) :
    ∀ (q : List V) (s v t : V), IsPath nbrs s (q ++ [v]) t →
      t = v ∧ IsPath nbrs s q (endOf s q) ∧ v ∈ nbrs (endOf s q) := by
  intro q
  induction q with
  | nil =>
    intro s v t hp
    obtain ⟨hv, h0⟩ := (isPath_cons nbrs s v t []).mp hp
    obtain rfl := (isPath_nil nbrs v t).mp h0
    exact ⟨rfl, (isPath_nil nbrs s s).mpr rfl, hv⟩
  | cons w q ih =>
    intro s v t hp
    obtain ⟨hw, hp'⟩ := (isPath_cons nbrs s w t (q ++ [v])).mp hp
    obtain ⟨h1, h2, h3⟩ := ih w v t hp'
    refine ⟨h1, ?_, ?_⟩
    · rw [endOf_cons]
      exact (isPath_cons nbrs s w (endOf w q) q).mpr ⟨hw, h2⟩
    · rw [endOf_cons]
      exact h3

/-- A path of length at most `n` puts its endpoint in round `n`. -/
theorem reachN_complete (nbrs : V → List V) :
    ∀ (p : List V) (s t : V), IsPath nbrs s p t →
      ∀ n, p.length ≤ n → t ∈ reachN nbrs n s := by
  intro p
  induction p using List.reverseRecOn with
  | nil =>
    intro s t hp n _
    obtain rfl := (isPath_nil nbrs s t).mp hp
    exact self_mem_reachN nbrs n s
  | append_singleton q v ih =>
    intro s t hp n hlen
    obtain ⟨rfl, hq, hstep⟩ := isPath_concat_decomp nbrs q s v t hp
    have hq' : endOf s q ∈ reachN nbrs q.length s :=
      ih s (endOf s q) hq q.length (Nat.le_refl _)
    have hlen' : q.length + 1 ≤ n := by simpa using hlen
    exact reachN_mono nbrs s n (q.length + 1) hlen'
      (mem_expandR_step nbrs hq' hstep)

/-- Decided connectivity yields a path. -/
theorem connectedB_sound {nbrs : V → List V} {univ : List V} {s t : V}
    (h : connectedB nbrs univ s t = true) : ∃ p, IsPath nbrs s p t :=
  reachN_sound nbrs _ s t (of_decide_eq_true h)

/-- A path yields decided connectivity. -/
theorem connectedB_complete {nbrs : V → List V} {univ : List V} {s t : V}
    (hU : ∀ u v, v ∈ nbrs u → v ∈ univ) {p : List V}
    (hp : IsPath nbrs s p t) : connectedB nbrs univ s t = true := by
  obtain ⟨p', h1, _, h3, h4⟩ :=
    isPath_shrink nbrs (fun _ => 0) p.length p (Nat.le_refl _) s t hp
  have hsub : p' ⊆ univ := fun x hx => isPath_mem_univ nbrs hU p s t hp x (h4 hx)
  have hnd : p'.Nodup := (List.nodup_cons.mp h3).2
  have hlen : p'.length ≤ univ.length := (hnd.subperm hsub).length_le
  have hmem : t ∈ reachN nbrs (univ.length + 1) s :=
    reachN_complete nbrs p' s t h1 _ (le_trans hlen (Nat.le_succ _))
  exact decide_eq_true hmem

/-- `chooseMinBy` returns its default or a list element. -/
theorem chooseMinBy_eq_or_mem (f : V → Nat) :
    ∀ (l : List V) (d : V), chooseMinBy f d l = d ∨ chooseMinBy f d l ∈ l := by
  intro l
  induction l with
  | nil =>
    intro d
    exact Or.inl rfl
  | cons a as ih =>
    intro d
    simp only [chooseMinBy]
    split
    · exact Or.inl rfl
    · rcases ih a with h | h
      · rw [h]
        exact Or.inr (List.mem_cons_self a as)
      · exact Or.inr (List.mem_cons_of_mem a h)

/-- `chooseMinBy` minimizes `f` over the default and the list. -/
theorem chooseMinBy_min (f : V → Nat) :
    ∀ (l : List V) (d x : V), x ∈ d :: l → f (chooseMinBy f d l) ≤ f x := by
  intro l
  induction l with
  | nil =>
    intro d x hx
    simp at hx
    subst hx
    exact Nat.le_refl _
  | cons a as ih =>
    intro d x hx
    simp only [chooseMinBy]
    split
    case isTrue h =>
      rcases List.mem_cons.mp hx with rfl | h'
      · exact Nat.le_refl _
      · exact le_trans h (ih a x h')
    case isFalse h =>
      rcases List.mem_cons.mp hx with rfl | h'
      · exact le_of_not_le h
      · exact ih a x h'

/-- When `chooseMinBy` moves off its default, it is strictly better. -/
theorem chooseMinBy_strict (f : V → Nat) (l : List V) (d : V)
    (h : chooseMinBy f d l ≠ d) : f (chooseMinBy f d l) < f d := by
  cases l with
  | nil => exact absurd rfl h
  | cons a as =>
    by_cases hle : f d ≤ f (chooseMinBy f a as)
    · exact absurd (by simp [chooseMinBy, hle]) h
    · have heq : chooseMinBy f d (a :: as) = chooseMinBy f a as := by
        simp [chooseMinBy, hle]
      rw [heq]
      exact not_le.mp hle

/-- Popping an entry from a nonempty frontier always succeeds. -/
theorem popMin_isSome (h : V → Nat) (e : Entry V) (rest : List (Entry V)) :
    ∃ pair, popMin h (e :: rest) = some pair := by
  simp only [popMin]
  cases hrec : popMin h rest with
  | none => exact ⟨(e, []), rfl⟩
  | some pair =>
    obtain ⟨e', rest'⟩ := pair
    by_cases hle : fval h e ≤ fval h e'
    · exact ⟨(e, rest), by simp [hle]⟩
    · exact ⟨(e', e :: rest'), by simp [hle]⟩

/-- A failed pop means the frontier was empty. -/
theorem eq_nil_of_popMin_eq_none {h : V → Nat} {F : List (Entry V)}
    (hp : popMin h F = none) : F = [] := by
  cases F with
  | nil => rfl
  | cons e rest =>
    obtain ⟨pair, hpair⟩ := popMin_isSome h e rest
    rw [hpair] at hp
    exact Option.noConfusion hp

/-- Popping permutes the frontier: the result is the popped entry plus the
rest. -/
theorem popMin_perm (h : V → Nat) :
    ∀ (F : List (Entry V)) (e : Entry V) (F' : List (Entry V)),
      popMin h F = some (e, F') → F.Perm (e :: F') := by
  intro F
  induction F with
  | nil =>
    intro e F' hp
    simp [popMin] at hp
  | cons e0 rest ih =>
    intro e F' hp
    simp only [popMin] at hp
    cases hrec : popMin h rest with
    | none =>
      rw [hrec] at hp
      have hnil : rest = [] := eq_nil_of_popMin_eq_none hrec
      subst hnil
      simp at hp
      obtain ⟨rfl, rfl⟩ := hp
      exact List.Perm.refl _
    | some pair =>
      obtain ⟨e', rest'⟩ := pair
      rw [hrec] at hp
      by_cases hle : fval h e0 ≤ fval h e'
      · simp [hle] at hp
        obtain ⟨rfl, rfl⟩ := hp
        exact List.Perm.refl _
      · simp [hle] at hp
        obtain ⟨rfl, rfl⟩ := hp
        exact ((ih e' rest' hrec).cons e0).trans (List.Perm.swap e' e0 rest')

/-- The popped entry has minimal priority over the frontier. -/
theorem popMin_min (h : V → Nat) :
    ∀ (F : List (Entry V)) (e : Entry V) (F' : List (Entry V)),
      popMin h F = some (e, F') → ∀ x ∈ F, fval h e ≤ fval h x := by
  intro F
  induction F with
  | nil =>
    intro e F' hp
    simp [popMin] at hp
  | cons e0 rest ih =>
    intro e F' hp x hx
    simp only [popMin] at hp
    cases hrec : popMin h rest with
    | none =>
      rw [hrec] at hp
      simp at hp
      obtain ⟨rfl, rfl⟩ := hp
      have hnil : rest = [] := eq_nil_of_popMin_eq_none hrec
      subst hnil
      simp at hx
      subst hx
      exact Nat.le_refl _
    | some pair =>
      obtain ⟨e', rest'⟩ := pair
      rw [hrec] at hp
      by_cases hle : fval h e0 ≤ fval h e'
      · simp [hle] at hp
        obtain ⟨rfl, rfl⟩ := hp
        rcases List.mem_cons.mp hx with rfl | h'
        · exact Nat.le_refl _
        · exact le_trans hle (ih e' rest' hrec x h')
      · simp [hle] at hp
        obtain ⟨rfl, rfl⟩ := hp
        rcases List.mem_cons.mp hx with rfl | h'
        · exact le_of_not_le hle
        · exact ih e' rest' hrec x h'

/-- Every universe cell's successor count is bounded by the maximum. -/
theorem le_maxDeg (nbrs : V → List V) :
    ∀ (univ : List V) (u : V), u ∈ univ →
      (nbrs u).length ≤ maxDeg nbrs univ := by
  intro univ
  induction univ with
  | nil =>
    intro u hu
    simp at hu
  | cons a as ih =>
    intro u hu
    simp only [maxDeg, List.map_cons, List.foldr_cons]
    rcases List.mem_cons.mp hu with rfl | h'
    · exact le_max_left _ _
    · exact le_trans (ih u h') (le_max_right _ _)

/-- Walking a path out of a settled cell towards an unsettled target finds a
frontier entry whose accumulated cost plus remaining-path cost is within the
settled cost plus the path cost. -/
theorem ainv_walk {nbrs : V → List V} {cost h : V → Nat} {s goal : V}
    {univ : List V} {F : List (Entry V)} {C : List (V × Nat)}
    (inv : AInv nbrs cost h s goal univ F C) :
    ∀ (P : List V) (u t : V) (gu : Nat), (u, gu) ∈ C → IsPath nbrs u P t →
      t ∉ C.map Prod.fst →
      ∃ e ∈ F, ∃ Q, IsPath nbrs e.node Q t ∧
        e.g + pathCost cost Q ≤ gu + pathCost cost P := by
  intro P
  induction P with
  | nil =>
    intro u t gu huC hp htC
    obtain rfl := (isPath_nil nbrs u t).mp hp
    exact absurd (List.mem_map.mpr ⟨(u, gu), huC, rfl⟩) htC
  | cons v P ih =>
    intro u t gu huC hp htC
    obtain ⟨hv, hp'⟩ := (isPath_cons nbrs u v t P).mp hp
    by_cases hvC : v ∈ C.map Prod.fst
    · obtain ⟨⟨qv, qg⟩, hqC, hq1⟩ := List.mem_map.mp hvC
      dsimp only at hq1
      rw [hq1] at hqC
      obtain ⟨Pu, hPu, hPucost⟩ := inv.settledAtt (u, gu) huC
      have hPv : IsPath nbrs s (Pu ++ [v]) v := isPath_concat nbrs hPu hv
      have hqb : qg ≤ gu + cost v := by
        have hmin := inv.settledMin (v, qg) hqC (Pu ++ [v]) hPv
        rw [pathCost_append, pathCost_cons, pathCost_nil, hPucost] at hmin
        omega
      obtain ⟨e, heF, Q, hQ, hb⟩ := ih v t qg hqC hp' htC
      refine ⟨e, heF, Q, hQ, ?_⟩
      rw [pathCost_cons]
      omega
    · obtain ⟨e, heF, hnode, hg⟩ := inv.front (u, gu) huC v hv hvC
      refine ⟨e, heF, P, ?_, ?_⟩
      · rw [hnode]
        exact hp'
      · rw [pathCost_cons, hg]
        omega

/-- Coverage: while a target is unsettled, every path from the start to it
is covered by a frontier entry within its cost budget. -/
theorem ainv_cover {nbrs : V → List V} {cost h : V → Nat} {s goal : V}
    {univ : List V} {F : List (Entry V)} {C : List (V × Nat)}
    (inv : AInv nbrs cost h s goal univ F C)
    {P : List V} {t : V} (hp : IsPath nbrs s P t) (htC : t ∉ C.map Prod.fst) :
    ∃ e ∈ F, ∃ Q, IsPath nbrs e.node Q t ∧
      e.g + pathCost cost Q ≤ pathCost cost P := by
  rcases inv.start with hsC | hsF
  · obtain ⟨⟨sv, sg⟩, hqC, hq1⟩ := List.mem_map.mp hsC
    dsimp only at hq1
    rw [hq1] at hqC
    have hs0 : sg = 0 := by
      have h0 := inv.settledMin (s, sg) hqC [] ((isPath_nil nbrs s s).mpr rfl)
      simpa [pathCost_nil] using h0
    subst hs0
    obtain ⟨e, heF, Q, hQ, hb⟩ := ainv_walk inv P s t 0 hqC hp htC
    exact ⟨e, heF, Q, hQ, by simpa using hb⟩
  · exact ⟨⟨s, 0, []⟩, hsF, P, hp, by simp⟩

/-- Admissibility along a path, from step consistency of the heuristic. -/
theorem heuristic_le_path {nbrs : V → List V} {cost h : V → Nat}
    (hcons : ∀ u v, v ∈ nbrs u → h u ≤ cost v + h v) :
    ∀ (Q : List V) (y t : V), IsPath nbrs y Q t →
      h y ≤ pathCost cost Q + h t := by
  intro Q
  induction Q with
  | nil =>
    intro y t hq
    obtain rfl := (isPath_nil nbrs y t).mp hq
    simp
  | cons v Q ih =>
    intro y t hq
    obtain ⟨hv, hq'⟩ := (isPath_cons nbrs y v t Q).mp hq
    have h1 := hcons y v hv
    have h2 := ih v t hq'
    rw [pathCost_cons]
    omega

/-- When an unsettled cell is popped, its accumulated cost lower-bounds
every path to it: coverage plus pop minimality plus consistency. -/
theorem ainv_popbound {nbrs : V → List V} {cost h : V → Nat} {s goal : V}
    {univ : List V} {F F' : List (Entry V)} {C : List (V × Nat)} {e : Entry V}
    (inv : AInv nbrs cost h s goal univ F C)
    (hcons : ∀ u v, v ∈ nbrs u → h u ≤ cost v + h v)
    (hpop : popMin h F = some (e, F')) (heC : e.node ∉ C.map Prod.fst) :
    ∀ P, IsPath nbrs s P e.node → e.g ≤ pathCost cost P := by
  intro P hP
  obtain ⟨e', he'F, Q, hQ, hb⟩ := ainv_cover inv hP heC
  have hmin := popMin_min h F e F' hpop e' he'F
  have hadm := heuristic_le_path hcons Q e'.node e.node hQ
  unfold fval at hmin
  omega

/-- Discarding a stale pop (an already-settled cell) preserves the
invariant. -/
theorem ainv_skip {nbrs : V → List V} {cost h : V → Nat} {s goal : V}
    {univ : List V} {F F' : List (Entry V)} {C : List (V × Nat)} {e : Entry V}
    (inv : AInv nbrs cost h s goal univ F C)
    (hpop : popMin h F = some (e, F')) (heC : e.node ∈ C.map Prod.fst) :
    AInv nbrs cost h s goal univ F' C := by
  have hperm := popMin_perm h F e F' hpop
  have hmemF : ∀ x ∈ F', x ∈ F := fun x hx =>
    hperm.mem_iff.mpr (List.mem_cons_of_mem e hx)
  refine ⟨fun x hx => inv.paths x (hmemF x hx), inv.settledAtt,
    inv.settledMin, ?_, ?_, inv.goalOpen,
    fun x hx => inv.fNodes x (hmemF x hx), inv.cNodes, inv.cNodup⟩
  · intro q hqC v hv hvC
    obtain ⟨e', he'F, hnode, hg⟩ := inv.front q hqC v hv hvC
    have hmem : e' ∈ e :: F' := hperm.mem_iff.mp he'F
    rcases List.mem_cons.mp hmem with rfl | h'
    · exact absurd (hnode ▸ heC) hvC
    · exact ⟨e', h', hnode, hg⟩
  · rcases inv.start with hsC | hsF
    · exact Or.inl hsC
    · have hmem : _ ∈ e :: F' := hperm.mem_iff.mp hsF
      rcases List.mem_cons.mp hmem with heq | h'
      · left
        rw [← heq] at heC
        exact heC
      · exact Or.inr h'

/-- Settling a freshly popped non-goal cell preserves the invariant. -/
theorem ainv_settle {nbrs : V → List V} {cost h : V → Nat} {s goal : V}
    {univ : List V} {F F' : List (Entry V)} {C : List (V × Nat)} {e : Entry V}
    (inv : AInv nbrs cost h s goal univ F C)
    (hU : ∀ u v, v ∈ nbrs u → v ∈ univ)
    (hcons : ∀ u v, v ∈ nbrs u → h u ≤ cost v + h v)
    (hpop : popMin h F = some (e, F')) (heC : e.node ∉ C.map Prod.fst)
    (hgoal : e.node ≠ goal) :
    AInv nbrs cost h s goal univ
      (F' ++ (nbrs e.node).map (fun v => ⟨v, e.g + cost v, e.path ++ [v]⟩))
      ((e.node, e.g) :: C) := by
  have hperm := popMin_perm h F e F' hpop
  have hmemF : ∀ x ∈ F', x ∈ F := fun x hx =>
    hperm.mem_iff.mpr (List.mem_cons_of_mem e hx)
  have heF : e ∈ F := hperm.mem_iff.mpr (List.mem_cons_self e F')
  obtain ⟨hePath, heCost⟩ := inv.paths e heF
  have hbound := ainv_popbound inv hcons hpop heC
  constructor
  · intro x hx
    rcases List.mem_append.mp hx with h' | h'
    · exact inv.paths x (hmemF x h')
    · obtain ⟨v, hv, rfl⟩ := List.mem_map.mp h'
      refine ⟨isPath_concat nbrs hePath hv, ?_⟩
      simp [pathCost_append, pathCost_cons, pathCost_nil, heCost]
  · intro q hq
    rcases List.mem_cons.mp hq with rfl | h'
    · exact ⟨e.path, hePath, heCost⟩
    · exact inv.settledAtt q h'
  · intro q hq P hP
    rcases List.mem_cons.mp hq with rfl | h'
    · exact hbound P hP
    · exact inv.settledMin q h' P hP
  · intro q hq v hv hvC
    have hvne : v ≠ e.node ∧ v ∉ C.map Prod.fst := by
      simp only [List.map_cons, List.mem_cons, not_or] at hvC
      exact hvC
    rcases List.mem_cons.mp hq with rfl | h'
    · refine ⟨⟨v, e.g + cost v, e.path ++ [v]⟩, ?_, rfl, rfl⟩
      exact List.mem_append.mpr (Or.inr (List.mem_map.mpr ⟨v, hv, rfl⟩))
    · obtain ⟨e', he'F, hnode, hg⟩ := inv.front q h' v hv hvne.2
      have hmem : e' ∈ e :: F' := hperm.mem_iff.mp he'F
      rcases List.mem_cons.mp hmem with rfl | h''
      · exact absurd hnode.symm hvne.1
      · exact ⟨e', List.mem_append.mpr (Or.inl h''), hnode, hg⟩
  · rcases inv.start with hsC | hsF
    · refine Or.inl ?_
      simp only [List.map_cons]
      exact List.mem_cons_of_mem _ hsC
    · have hmem : _ ∈ e :: F' := hperm.mem_iff.mp hsF
      rcases List.mem_cons.mp hmem with heq | h'
      · left
        have hen : e.node = s := by rw [← heq]
        simp [List.map_cons, hen]
      · exact Or.inr (List.mem_append.mpr (Or.inl h'))
  · simp only [List.map_cons, List.mem_cons, not_or]
    exact ⟨fun hh => hgoal hh.symm, inv.goalOpen⟩
  · intro x hx
    rcases List.mem_append.mp hx with h' | h'
    · exact inv.fNodes x (hmemF x h')
    · obtain ⟨v, hv, rfl⟩ := List.mem_map.mp h'
      exact List.mem_cons_of_mem s (hU e.node v hv)
  · intro q hq
    rcases List.mem_cons.mp hq with rfl | h'
    · exact inv.fNodes e heF
    · exact inv.cNodes q h'
  · simp only [List.map_cons, List.nodup_cons]
    exact ⟨heC, inv.cNodup⟩

/-- Unconditional soundness: whatever the loop returns is a real path to the
goal of exactly the returned cost. -/
theorem astarLoop_sound {nbrs : V → List V} {cost h : V → Nat} {s goal : V} :
    ∀ (fuel : Nat) (F : List (Entry V)) (C : List (V × Nat)),
      (∀ e ∈ F, IsPath nbrs s e.path e.node ∧ pathCost cost e.path = e.g) →
      ∀ p c, astarLoop nbrs cost h goal fuel F C = some (p, c) →
        IsPath nbrs s p goal ∧ pathCost cost p = c := by
  intro fuel
  induction fuel with
  | zero =>
    intro F C _ p c hres
    simp [astarLoop] at hres
  | succ fuel ih =>
    intro F C hF p c hres
    simp only [astarLoop] at hres
    cases hpop : popMin h F with
    | none =>
      rw [hpop] at hres
      simp at hres
    | some pair =>
      obtain ⟨e, F'⟩ := pair
      rw [hpop] at hres
      dsimp only at hres
      have hperm := popMin_perm h F e F' hpop
      have hmemF : ∀ x ∈ F', x ∈ F := fun x hx =>
        hperm.mem_iff.mpr (List.mem_cons_of_mem e hx)
      have heF : e ∈ F := hperm.mem_iff.mpr (List.mem_cons_self e F')
      by_cases hg : e.node = goal
      · simp only [hg, if_pos rfl] at hres
        simp at hres
        obtain ⟨rfl, rfl⟩ := hres
        obtain ⟨h1, h2⟩ := hF e heF
        exact ⟨hg ▸ h1, h2⟩
      · rw [if_neg hg] at hres
        by_cases hc : e.node ∈ C.map Prod.fst
        · rw [if_pos hc] at hres
          exact ih F' C (fun x hx => hF x (hmemF x hx)) p c hres
        · rw [if_neg hc] at hres
          refine ih _ _ ?_ p c hres
          intro x hx
          rcases List.mem_append.mp hx with h' | h'
          · exact hF x (hmemF x h')
          · obtain ⟨v, hv, rfl⟩ := List.mem_map.mp h'
            obtain ⟨h1, h2⟩ := hF e heF
            exact ⟨isPath_concat nbrs h1 hv,
              by simp [pathCost_append, pathCost_cons, pathCost_nil, h2]⟩

/-- The A* loop, from an invariant state with enough fuel, returns a
minimum-cost path to the goal whenever any path exists. -/
theorem astarLoop_correct {nbrs : V → List V} {cost h : V → Nat} {s goal : V}
    {univ : List V}
    (hU : ∀ u v, v ∈ nbrs u → v ∈ univ)
    (hcons : ∀ u v, v ∈ nbrs u → h u ≤ cost v + h v) :
    ∀ (fuel : Nat) (F : List (Entry V)) (C : List (V × Nat)),
      AInv nbrs cost h s goal univ F C →
      ameasure nbrs (s :: univ) F C < fuel →
      (∃ P, IsPath nbrs s P goal) →
      ∃ p c, astarLoop nbrs cost h goal fuel F C = some (p, c) ∧
        IsPath nbrs s p goal ∧ pathCost cost p = c ∧
        ∀ q, IsPath nbrs s q goal → c ≤ pathCost cost q := by
  intro fuel
  induction fuel with
  | zero =>
    intro F C _ hmu _
    exact absurd hmu (Nat.not_lt_zero _)
  | succ fuel ih =>
    intro F C inv hmu hconn
    cases hpop : popMin h F with
    | none =>
      exfalso
      obtain ⟨P, hP⟩ := hconn
      obtain ⟨e2, he2, _⟩ := ainv_cover inv hP inv.goalOpen
      rw [eq_nil_of_popMin_eq_none hpop] at he2
      simp at he2
    | some pair =>
      obtain ⟨e, F'⟩ := pair
      have hperm := popMin_perm h F e F' hpop
      have hlenF : F.length = F'.length + 1 := by simpa using hperm.length_eq
      have heF : e ∈ F := hperm.mem_iff.mpr (List.mem_cons_self e F')
      by_cases hg : e.node = goal
      · obtain ⟨h1, h2⟩ := inv.paths e heF
        refine ⟨e.path, e.g, ?_, hg ▸ h1, h2, ?_⟩
        · simp only [astarLoop]
          rw [hpop]
          dsimp only
          simp [hg]
        · intro q hq
          have heCg : e.node ∉ C.map Prod.fst := by
            rw [hg]
            exact inv.goalOpen
          have hq' : IsPath nbrs s q e.node := by
            rw [hg]
            exact hq
          exact ainv_popbound inv hcons hpop heCg q hq'
      · by_cases hc : e.node ∈ C.map Prod.fst
        · have hinv' := ainv_skip inv hpop hc
          have hmu' : ameasure nbrs (s :: univ) F' C < fuel := by
            unfold ameasure at hmu ⊢
            generalize ((s :: univ).length - C.length) *
              (maxDeg nbrs (s :: univ) + 1) = X at hmu ⊢
            omega
          obtain ⟨p, c, hres, hrest⟩ := ih F' C hinv' hmu' hconn
          refine ⟨p, c, ?_, hrest⟩
          simp only [astarLoop]
          rw [hpop]
          dsimp only
          rw [if_neg hg, if_pos hc]
          exact hres
        · have hinv' := ainv_settle inv hU hcons hpop hc hg
          have hdeg : (nbrs e.node).length ≤ maxDeg nbrs (s :: univ) :=
            le_maxDeg nbrs (s :: univ) e.node (inv.fNodes e heF)
          have hC1 : C.length + 1 ≤ (s :: univ).length := by
            have hnd : (((e.node, e.g) :: C).map Prod.fst).Nodup := hinv'.cNodup
            have hsub : (((e.node, e.g) :: C).map Prod.fst) ⊆ s :: univ := by
              intro x hx
              simp only [List.map_cons, List.mem_cons] at hx
              rcases hx with rfl | hx'
              · exact inv.fNodes e heF
              · obtain ⟨q, hqC, rfl⟩ := List.mem_map.mp hx'
                exact inv.cNodes q hqC
            have hlen := (hnd.subperm hsub).length_le
            simpa using hlen
          have hmu' : ameasure nbrs (s :: univ)
              (F' ++ (nbrs e.node).map (fun v => ⟨v, e.g + cost v, e.path ++ [v]⟩))
              ((e.node, e.g) :: C) < fuel := by
            unfold ameasure at hmu ⊢
            simp only [List.length_append, List.length_map,
              List.length_cons] at hmu hC1 ⊢
            have hx : univ.length + 1 - C.length =
                (univ.length + 1 - (C.length + 1)) + 1 := by omega
            rw [hx, Nat.succ_mul] at hmu
            generalize (univ.length + 1 - (C.length + 1)) *
              (maxDeg nbrs (s :: univ) + 1) = X at hmu ⊢
            omega
          obtain ⟨p, c, hres, hrest⟩ := ih _ _ hinv' hmu' hconn
          refine ⟨p, c, ?_, hrest⟩
          simp only [astarLoop]
          rw [hpop]
          dsimp only
          rw [if_neg hg, if_neg hc]
          exact hres

/-- Modelled A* is correct and optimal: whenever start and goal are
connected it returns a path to the goal whose cost is minimal over all
paths, given a step-consistent heuristic. -/
theorem astar_correct {nbrs : V → List V} {cost h : V → Nat} {s goal : V}
    {univ : List V}
    (hU : ∀ u v, v ∈ nbrs u → v ∈ univ)
    (hcons : ∀ u v, v ∈ nbrs u → h u ≤ cost v + h v)
    {P : List V} (hconn : IsPath nbrs s P goal) :
    ∃ p c, astar nbrs cost h univ s goal = some (p, c) ∧
      IsPath nbrs s p goal ∧ pathCost cost p = c ∧
      ∀ q, IsPath nbrs s q goal → c ≤ pathCost cost q := by
  have hinv : AInv nbrs cost h s goal univ [⟨s, 0, []⟩] [] := by
    constructor
    · intro e he
      simp at he
      subst he
      exact ⟨(isPath_nil nbrs s s).mpr rfl, rfl⟩
    · intro q hq
      simp at hq
    · intro q hq
      simp at hq
    · intro q hq
      simp at hq
    · exact Or.inr (List.mem_cons_self _ _)
    · simp
    · intro e he
      simp at he
      subst he
      exact List.mem_cons_self _ _
    · intro q hq
      simp at hq
    · simp
  have hmu : ameasure nbrs (s :: univ) [⟨s, 0, []⟩] [] <
      astarFuel nbrs (s :: univ) := by
    unfold ameasure astarFuel
    simp
  unfold astar
  exact astarLoop_correct hU hcons (astarFuel nbrs (s :: univ)) _ _ hinv hmu
    ⟨P, hconn⟩

/-- Soundness of the fueled A* entry point. -/
theorem astar_sound {nbrs : V → List V} {cost h : V → Nat} {s goal : V}
    {univ : List V} {p : List V} {c : Nat}
    (hres : astar nbrs cost h univ s goal = some (p, c)) :
    IsPath nbrs s p goal ∧ pathCost cost p = c := by
  unfold astar at hres
  refine astarLoop_sound _ _ _ ?_ p c hres
  intro e he
  simp at he
  subst he
  exact ⟨(isPath_nil nbrs s s).mpr rfl, rfl⟩

/-- The closest approach is a reachable cell. -/
theorem closestApproach_mem {nbrs : V → List V} {univ : List V}
    {hg : V → Nat} (s : V) :
    closestApproach nbrs univ hg s ∈ reachableList nbrs univ s := by
  unfold closestApproach
  rcases chooseMinBy_eq_or_mem hg (reachableList nbrs univ s) s with h | h
  · rw [h]
    exact self_mem_reachN nbrs _ s
  · exact h

/-- The closest approach minimizes the heuristic over the reachable set. -/
theorem closestApproach_min {nbrs : V → List V} {univ : List V}
    {hg : V → Nat} (s : V) :
    ∀ v ∈ reachableList nbrs univ s,
      hg (closestApproach nbrs univ hg s) ≤ hg v := by
  intro v hv
  exact chooseMinBy_min hg (reachableList nbrs univ s) s v
    (List.mem_cons_of_mem s hv)

/-- A closest approach other than the start is strictly closer to the
goal. -/
theorem closestApproach_strict {nbrs : V → List V} {univ : List V}
    {hg : V → Nat} (s : V) (h : closestApproach nbrs univ hg s ≠ s) :
    hg (closestApproach nbrs univ hg s) < hg s :=
  chooseMinBy_strict hg (reachableList nbrs univ s) s h

end Search

/-- Chebyshev distance satisfies the triangle inequality. -/
theorem chebDist_triangle (a b c : UVec3) :
    chebDist a c ≤ chebDist a b + chebDist b c := by
  unfold chebDist
  apply max_le
  · exact le_trans (Nat.dist.triangle_inequality _ _ _)
      (Nat.add_le_add (le_max_left _ _) (le_max_left _ _))
  · apply max_le
    · refine le_trans (Nat.dist.triangle_inequality a.y b.y c.y) ?_
      exact Nat.add_le_add (le_trans (le_max_left _ _) (le_max_right _ _))
        (le_trans (le_max_left _ _) (le_max_right _ _))
    · refine le_trans (Nat.dist.triangle_inequality a.z b.z c.z) ?_
      exact Nat.add_le_add (le_trans (le_max_right _ _) (le_max_right _ _))
        (le_trans (le_max_right _ _) (le_max_right _ _))

/-- What membership in the grid successor list gives. -/
theorem mem_grid_nbrs {G : Grid} {u v : UVec3} (hv : v ∈ G.nbrs u) :
    v ∈ cellsList G ∧ (G.cells v).walkable = true ∧ chebDist u v = 1 := by
  have h := List.mem_filter.mp hv
  have h2 := h.2
  simp only [Bool.and_eq_true, beq_iff_eq] at h2
  exact ⟨h.1, h2.1.1, h2.1.2⟩

/-- The grid minimum cost lower-bounds every walkable in-bounds cell. -/
theorem minCellCost_le {G : Grid} {v : UVec3} (hin : v ∈ cellsList G)
    (hw : (G.cells v).walkable = true) :
    minCellCost G ≤ (G.cells v).cost := by
  have hmem : (G.cells v).cost ∈ walkableCosts G := by
    unfold walkableCosts
    exact List.mem_map.mpr ⟨v, List.mem_filter.mpr ⟨hin, hw⟩, rfl⟩
  unfold minCellCost
  cases hwc : walkableCosts G with
  | nil =>
    rw [hwc] at hmem
    simp at hmem
  | cons c cs =>
    rw [hwc] at hmem
    dsimp only
    rcases List.mem_cons.mp hmem with h | h
    · rw [h]
      exact Search.listMinD_le_d cs c
    · exact Search.listMinD_le_mem cs c _ h

/-- Step consistency of the Chebyshev heuristic on the grid. -/
theorem gridHeuristic_consistent (G : Grid) (goal : UVec3) :
    ∀ u v, v ∈ G.nbrs u →
      gridHeuristic G goal u ≤ G.cost v + gridHeuristic G goal v := by
  intro u v hv
  obtain ⟨hin, hw, hcheb⟩ := mem_grid_nbrs hv
  unfold gridHeuristic Grid.cost
  have htri : chebDist u goal ≤ chebDist v goal + 1 := by
    have h := chebDist_triangle u v goal
    rw [hcheb] at h
    omega
  have hm : minCellCost G ≤ (G.cells v).cost := minCellCost_le hin hw
  calc chebDist u goal * minCellCost G
      ≤ (chebDist v goal + 1) * minCellCost G :=
        Nat.mul_le_mul_right _ htri
    _ = chebDist v goal * minCellCost G + minCellCost G := by
        rw [Nat.succ_mul]
    _ ≤ (G.cells v).cost + chebDist v goal * minCellCost G := by omega

/-- Grid successors stay inside the in-bounds cell universe. -/
theorem grid_hU (G : Grid) : ∀ u v, v ∈ G.nbrs u → v ∈ cellsList G :=
  fun _ v hv => (mem_grid_nbrs hv).1

/-- Connected cells admit a successful grid A* run. -/
theorem gridAStar_some_of_connected {G : Grid} {s g : UVec3}
    (hconn : gridConnectedB G s g = true) :
    ∃ p c, gridAStar G s g = some (p, c) := by
  obtain ⟨P, hP⟩ := Search.connectedB_sound hconn
  obtain ⟨p, c, hres, _⟩ :=
    Search.astar_correct (grid_hU G) (gridHeuristic_consistent G g) hP
  exact ⟨p, c, hres⟩

/-- A failed grid A* run means the cells are not connected. -/
theorem gridConnectedB_false_of_astar_none {G : Grid} {s g : UVec3}
    (hA : gridAStar G s g = none) : gridConnectedB G s g = false := by
  cases hcb : gridConnectedB G s g
  · rfl
  · obtain ⟨p1, c1, hres1⟩ := gridAStar_some_of_connected hcb
    rw [hres1] at hA
    exact Option.noConfusion hA

/-- The partial-path result always exists: it is a minimum-cost path from
the start to its closest approach towards the goal. -/
theorem gridPartialPath_spec (G : Grid) (s g : UVec3) :
    ∃ p c, gridAStar G s (gridClosestApproach G s g) = some (p, c) ∧
      gridPartialPath G s g = some p ∧
      Search.IsPath G.nbrs s p (gridClosestApproach G s g) ∧
      Search.pathCost G.cost p = c ∧
      ∀ q, Search.IsPath G.nbrs s q (gridClosestApproach G s g) →
        c ≤ Search.pathCost G.cost q := by
  have hca : gridClosestApproach G s g ∈
      Search.reachableList G.nbrs (cellsList G) s :=
    Search.closestApproach_mem s
  have hcb : Search.connectedB G.nbrs (cellsList G) s
      (gridClosestApproach G s g) = true := decide_eq_true hca
  obtain ⟨P, hP⟩ := Search.connectedB_sound hcb
  obtain ⟨p, c, hres, hpath, hcost, hmin⟩ := Search.astar_correct (grid_hU G)
    (gridHeuristic_consistent G (gridClosestApproach G s g)) hP
  refine ⟨p, c, hres, ?_, hpath, hcost, hmin⟩
  unfold gridPartialPath gridAStar
  rw [hres]
  rfl

/-- Dropping an agent removes exactly its occurrences from a grid list. -/
theorem RelWorld.mem_dropAgent (w : RelWorld) (a x g : Entity) :
    x ∈ w.dropAgent a g ↔ x ∈ w.gridAgents g ∧ x ≠ a := by
  simp [RelWorld.dropAgent]

/-- Dropping an agent preserves duplicate-freedom of a grid list. -/
theorem RelWorld.nodup_dropAgent (w : RelWorld) (a g : Entity)
    (hn : (w.gridAgents g).Nodup) : (w.dropAgent a g).Nodup :=
  hn.filter _

/-- The empty world is consistent. -/
theorem RelWorld.empty_consistent : RelWorld.empty.Consistent := by
  constructor
  · intro a g
    simp [RelWorld.empty]
  · intro g
    simp [RelWorld.empty]

/-! ## Claims -/

/-- C5: For every path request, the default pathfinding mode — the one used
when no mode is explicitly selected, by `Pathfind::new`, `new_2d`, `new_3d`
and `Default` — is `Refined`, the hierarchical pathfinding followed by
line-of-sight refinement. -/
theorem c5_default_mode_is_refined :
    (∀ goal, (Pathfind.new goal).mode = PathfindMode.Refined) ∧
      (∀ x y, (Pathfind.new_2d x y).mode = PathfindMode.Refined) ∧
      (∀ x y z, (Pathfind.new_3d x y z).mode = PathfindMode.Refined) ∧
      (Inhabited.default : PathfindMode) = PathfindMode.Refined ∧
      Pathfind.default.mode = PathfindMode.Refined :=
  ⟨fun _ => rfl, fun _ _ => rfl, fun _ _ _ => rfl, rfl, rfl⟩

/-- C9: `Pathfind::new_2d(x, y)` equals `Pathfind::new(UVec3::new(x, y, 0))`;
both produce goal `(x, y, 0)` with `partial = false` and mode `Refined`, and
`new_3d(x, y, z)` produces goal `(x, y, z)` with the same defaults. -/
theorem c9_constructor_agreement :
    (∀ x y, Pathfind.new_2d x y = Pathfind.new (UVec3.new x y 0)) ∧
      (∀ x y, (Pathfind.new_2d x y).goal = UVec3.new x y 0 ∧
        (Pathfind.new_2d x y).allowPartial = false ∧
        (Pathfind.new_2d x y).mode = PathfindMode.Refined) ∧
      (∀ x y z, (Pathfind.new_3d x y z).goal = UVec3.new x y z ∧
        (Pathfind.new_3d x y z).allowPartial = false ∧
        (Pathfind.new_3d x y z).mode = PathfindMode.Refined) :=
  ⟨fun _ _ => rfl, fun _ _ => ⟨rfl, rfl, rfl⟩, fun _ _ _ => ⟨rfl, rfl, rfl⟩⟩

/-- C10: `DebugGridBuilder::build` copies every configured field into the
returned `DebugGrid`, and `DebugGridBuilder::new(w, h)` starts from tile
size `(w, h)`, depth `0`, `Square` tilemap type, and all draw/show flags
`false`. -/
theorem c10_builder_build_fields :
    (∀ b : DebugGridBuilder,
      b.build.tile_width = b.tile_width ∧
        b.build.tile_height = b.tile_height ∧
        b.build.depth = b.depth ∧
        b.build.map_type = b.tilemap_type ∧
        b.build.draw_chunks = b.draw_chunks ∧
        b.build.draw_cells = b.draw_cells ∧
        b.build.draw_entrances = b.draw_entrances ∧
        b.build.draw_cached_paths = b.draw_cached_paths ∧
        b.build.show_connections_on_hover = b.show_connections_on_hover) ∧
      ∀ w h, DebugGridBuilder.new w h =
        { tile_width := w, tile_height := h, depth := 0,
          tilemap_type := DebugTilemapType.Square, draw_chunks := false,
          draw_cells := false, draw_entrances := false,
          draw_cached_paths := false, show_connections_on_hover := false } :=
  ⟨fun _ => ⟨rfl, rfl, rfl, rfl, rfl, rfl, rfl, rfl, rfl⟩, fun _ _ => rfl⟩

/-- C3 counterexample: the failure kinds surfaced by the code are the three
marker components declared in `src/components.rs`, which differ from the
four kinds the claim lists — `NoPathFound` and `PathInvalidated` are not
surfaced (they appear only in a commented-out enum), while the surfaced
`PathfindingFailed` marker is not among the claimed four. -/
theorem c3_counterexample :
    surfacedFailureMarkerNames ≠ specClaimedErrorKindNames ∧
      "PathInvalidated" ∈ specClaimedErrorKindNames ∧
      "PathInvalidated" ∉ surfacedFailureMarkerNames ∧
      "NoPathFound" ∈ specClaimedErrorKindNames ∧
      "NoPathFound" ∉ surfacedFailureMarkerNames ∧
      "PathfindingFailed" ∈ surfacedFailureMarkerNames ∧
      "PathfindingFailed" ∉ specClaimedErrorKindNames := by
  decide

/-- C3 amended: the failure kinds surfaced by the code are exactly the three
marker components `AvoidanceFailed`, `PathfindingFailed`, `RerouteFailed`;
each is agent-local state — inserting a marker on one entity leaves every
other entity untouched — and recoverable — the caller can clear an entity's
markers, restoring the unmarked state. -/
theorem c3_amended_marker_kinds :
    surfacedFailureMarkerNames =
        ["AvoidanceFailed", "PathfindingFailed", "RerouteFailed"] ∧
      (∀ (w : MarkerWorld) (e : Entity) (k : MarkerKind) (e' : Entity),
        e' ≠ e → insertMarker w e k e' = w e') ∧
      (∀ (w : MarkerWorld) (e : Entity), clearMarkers w e e = noMarkers) ∧
      (∀ (w : MarkerWorld) (e : Entity) (e' : Entity),
        e' ≠ e → clearMarkers w e e' = w e') := by
  refine ⟨rfl, ?_, ?_, ?_⟩
  · intro w e k e' hne
    simp [insertMarker, hne]
  · intro w e
    simp [clearMarkers]
  · intro w e e' hne
    simp [clearMarkers, hne]

/-- C3 amended witness: locality and recoverability at concrete entities. -/
theorem c3_amended_marker_kinds_witness :
    insertMarker (fun _ => noMarkers) 0 MarkerKind.avoidance 1 = noMarkers ∧
      clearMarkers (fun _ => noMarkers) 0 0 = noMarkers :=
  ⟨c3_amended_marker_kinds.2.1 (fun _ => noMarkers) 0 MarkerKind.avoidance 1
      (by decide),
    c3_amended_marker_kinds.2.2.1 (fun _ => noMarkers) 0⟩

/-- C4 counterexample: the code's failure representation — three independent
marker components — admits a state with two failure markers present at once,
so it is not a tagged-variant enum with exactly one active variant. -/
theorem c4_counterexample :
    (⟨true, false, true⟩ : FailureMarkers) ∈ allMarkerStates ∧
      markerCount ⟨true, false, true⟩ = 2 ∧
      ¬ markerCount (⟨true, false, true⟩ : FailureMarkers) ≤ 1 := by
  decide

/-- C4 amended: the code represents per-agent failure state as three
independent marker components (`AvoidanceFailed`, `PathfindingFailed`,
`RerouteFailed`); every presence/absence combination of the three markers is
a distinct representable state (eight in all), and no single-enum
`AgentStatus` representation exists in the code — the tagged-variant form is
the spec's proposed generalization. -/
theorem c4_amended_independent_markers :
    allMarkerStates.length = 8 ∧ allMarkerStates.Nodup ∧
      (∀ a p r : Bool, (⟨a, p, r⟩ : FailureMarkers) ∈ allMarkerStates) ∧
      ∃ m ∈ allMarkerStates, 2 ≤ markerCount m := by
  decide

/-- C7 counterexample: a tick-driven transition leaves `AvoidanceFailed`
without external intervention — the plugin's reroute system handles the
marker each tick (per its source doc comment), resuming `Following` when a
reroute is found. -/
theorem c7_counterexample :
    tickStep AgentStatus.avoidanceFailed
        { nextCellBlocked := false, detourFound := false,
          attemptsRemain := false, rerouteFound := true,
          pathfindFound := false } = AgentStatus.following ∧
      AgentStatus.following ≠ AgentStatus.avoidanceFailed := by
  decide

/-- C7 amended: only `RerouteFailed` is terminal — no tick-driven
transition, over any number of ticks, leaves it; `AvoidanceFailed` is
instead handled automatically each tick by the plugin's reroute system,
either resuming `Following` or escalating to `RerouteFailed`. -/
theorem c7_amended_reroute_failed_terminal :
    (∀ i, tickStep AgentStatus.rerouteFailed i = AgentStatus.rerouteFailed) ∧
      (∀ is, runTicks AgentStatus.rerouteFailed is = AgentStatus.rerouteFailed) ∧
      ∀ i, tickStep AgentStatus.avoidanceFailed i = AgentStatus.following ∨
        tickStep AgentStatus.avoidanceFailed i = AgentStatus.rerouteFailed := by
  refine ⟨fun _ => rfl, ?_, ?_⟩
  · intro is
    induction is with
    | nil => rfl
    | cons i is ih => simpa [runTicks, tickStep] using ih
  · intro i
    by_cases h : i.rerouteFound <;> simp [tickStep, h]

/-- C8: the single mutation paths of the agent-grid relationship preserve
bidirectional consistency — after any insert or removal the forward lists
and back-references still agree — and removing an agent removes it from
every grid's set. -/
theorem c8_relationship_consistency (w : RelWorld) (a g : Entity)
    (hw : w.Consistent) :
    (w.insertAgent a g).Consistent ∧ (w.removeAgent a).Consistent ∧
      (∀ g', a ∉ (w.removeAgent a).gridAgents g') ∧
      (w.insertAgent a g).agentOf a = some g ∧
      a ∈ (w.insertAgent a g).gridAgents g := by
  obtain ⟨hiff, hnd⟩ := hw
  refine ⟨⟨?_, ?_⟩, ⟨?_, ?_⟩, ?_, ?_, ?_⟩
  · intro a' g'
    by_cases ha : a' = a
    · subst ha
      by_cases hg : g' = g
      · rw [hg]
        simp [RelWorld.insertAgent]
      · simp [RelWorld.insertAgent, hg, RelWorld.mem_dropAgent, Ne.symm hg]
    · by_cases hg : g' = g
      · rw [hg]
        simp [RelWorld.insertAgent, ha, RelWorld.mem_dropAgent, hiff a' g]
      · simp [RelWorld.insertAgent, ha, hg, RelWorld.mem_dropAgent, hiff a' g']
  · intro g'
    by_cases hg : g' = g
    · rw [hg]
      have h1 : (w.insertAgent a g).gridAgents g = a :: w.dropAgent a g := by
        simp [RelWorld.insertAgent]
      rw [h1, List.nodup_cons]
      exact ⟨fun hmem => ((RelWorld.mem_dropAgent w a a g).mp hmem).2 rfl,
        RelWorld.nodup_dropAgent w a g (hnd g)⟩
    · simpa [RelWorld.insertAgent, hg] using RelWorld.nodup_dropAgent w a g' (hnd g')
  · intro a' g'
    by_cases ha : a' = a
    · subst ha
      simp [RelWorld.removeAgent, RelWorld.mem_dropAgent]
    · simp [RelWorld.removeAgent, ha, RelWorld.mem_dropAgent, hiff a' g']
  · intro g'
    exact RelWorld.nodup_dropAgent w a g' (hnd g')
  · intro g' hmem
    exact ((RelWorld.mem_dropAgent w a a g').mp hmem).2 rfl
  · simp [RelWorld.insertAgent]
  · simp [RelWorld.insertAgent]

/-- C8 witness: the mutation path applied to the consistent empty world. -/
theorem c8_relationship_consistency_witness :
    (RelWorld.empty.insertAgent 0 1).Consistent ∧
      RelWorld.empty.Consistent :=
  ⟨(c8_relationship_consistency RelWorld.empty 0 1 RelWorld.empty_consistent).1,
    RelWorld.empty_consistent⟩

/-- C1: for every grid and every pair of cells connected under its
walkability, the `AStar` mode search returns a path from start to goal whose
total cost under the cell-cost model equals the true minimum cost computed
by exhaustive search over all paths, and the path request surfaces exactly
that path. -/
theorem c1_astar_optimal (G : Grid) (s g : UVec3)
    (hconn : gridConnectedB G s g = true) :
    ∃ p c, gridAStar G s g = some (p, c) ∧
      Search.IsPath G.nbrs s p g ∧
      Search.pathCost G.cost p = c ∧
      (∀ q, Search.IsPath G.nbrs s q g → c ≤ Search.pathCost G.cost q) ∧
      gridExhaustiveMinCost G s g = some c ∧
      request_path G s g PathfindMode.AStar false = Except.ok p := by
  obtain ⟨P, hP⟩ := Search.connectedB_sound hconn
  obtain ⟨p, c, hres, hpath, hcost, hmin⟩ :=
    Search.astar_correct (grid_hU G) (gridHeuristic_consistent G g) hP
  have hres' : gridAStar G s g = some (p, c) := hres
  obtain ⟨cm, hcm⟩ : ∃ cm, Search.exhaustiveMinCost G.nbrs G.cost
      (cellsList G) s g = some cm :=
    Search.exhaustiveMinCost_some (grid_hU G) hP
  have h1 : cm ≤ c := by
    have hx := Search.exhaustiveMinCost_min (grid_hU G) hcm p hpath
    omega
  have h2 : c ≤ cm := by
    obtain ⟨pm, hpm, hpmc⟩ := Search.exhaustiveMinCost_attained hcm
    have hx := hmin pm hpm
    omega
  refine ⟨p, c, hres', hpath, hcost, hmin, ?_, ?_⟩
  · unfold gridExhaustiveMinCost
    have hceq : cm = c := le_antisymm h1 h2
    rw [← hceq]
    exact hcm
  · simp [request_path, hres']

/-- C1 witness: the fully walkable 2 by 2 grid, corner to corner. -/
theorem c1_astar_optimal_witness :
    gridConnectedB exampleOpenGrid (UVec3.new 0 0 0) (UVec3.new 1 1 0) = true ∧
      (∃ p c,
        gridAStar exampleOpenGrid (UVec3.new 0 0 0) (UVec3.new 1 1 0) =
          some (p, c) ∧
        Search.IsPath exampleOpenGrid.nbrs (UVec3.new 0 0 0) p
          (UVec3.new 1 1 0) ∧
        Search.pathCost exampleOpenGrid.cost p = c ∧
        (∀ q, Search.IsPath exampleOpenGrid.nbrs (UVec3.new 0 0 0) q
            (UVec3.new 1 1 0) →
          c ≤ Search.pathCost exampleOpenGrid.cost q) ∧
        gridExhaustiveMinCost exampleOpenGrid (UVec3.new 0 0 0)
          (UVec3.new 1 1 0) = some c ∧
        request_path exampleOpenGrid (UVec3.new 0 0 0) (UVec3.new 1 1 0)
          PathfindMode.AStar false = Except.ok p) :=
  ⟨by decide, c1_astar_optimal exampleOpenGrid _ _ (by decide)⟩

/-- C2: the pathfind request takes (agent position, goal, mode, partial
flag) and returns a `Path` or a `PathError`; a returned path is an ordered
finite cell sequence whose first element is the first step after the agent's
position (each step a successor of the previous), and whose last element is
the goal when it is reachable and the best-effort closest approach
otherwise; an error is always the recoverable `NoPathFound`, only when the
goal is unreachable and partial was not requested. -/
theorem c2_request_path_shape (G : Grid) (s g : UVec3) (mode : PathfindMode)
    (flag : Bool) :
    (∀ p, request_path G s g mode flag = Except.ok p →
      Search.IsPath G.nbrs s p (Search.endOf s p) ∧
      (gridConnectedB G s g = true → Search.endOf s p = g) ∧
      (gridConnectedB G s g = false →
        Search.endOf s p = gridClosestApproach G s g)) ∧
    ∀ err, request_path G s g mode flag = Except.error err →
      err = PathError.NoPathFound ∧ flag = false ∧
        gridConnectedB G s g = false := by
  constructor
  · intro p hp
    unfold request_path at hp
    cases hA : gridAStar G s g with
    | some pair =>
      obtain ⟨p0, c0⟩ := pair
      rw [hA] at hp
      dsimp only at hp
      have hpe : p0 = p := by simpa using hp
      have hpath : Search.IsPath G.nbrs s p g := by
        rw [← hpe]
        exact (Search.astar_sound hA).1
      have hct : gridConnectedB G s g = true :=
        Search.connectedB_complete (grid_hU G) hpath
      refine ⟨⟨hpath.1, rfl⟩, fun _ => hpath.2, ?_⟩
      intro hcf
      rw [hct] at hcf
      exact Bool.noConfusion hcf
    | none =>
      rw [hA] at hp
      dsimp only at hp
      cases flag with
      | false => simp at hp
      | true =>
        simp only [if_true] at hp
        obtain ⟨pp, cc, hresca, hpp, hpathca, _, _⟩ := gridPartialPath_spec G s g
        rw [hpp] at hp
        dsimp only at hp
        have hpe : pp = p := by simpa using hp
        have hpathp : Search.IsPath G.nbrs s p (gridClosestApproach G s g) := by
          rw [← hpe]
          exact hpathca
        refine ⟨⟨hpathp.1, rfl⟩, ?_, fun _ => hpathp.2⟩
        intro hctr
        obtain ⟨p1, c1, hres1⟩ := gridAStar_some_of_connected hctr
        rw [hres1] at hA
        exact Option.noConfusion hA
  · intro err herr
    unfold request_path at herr
    cases hA : gridAStar G s g with
    | some pair =>
      obtain ⟨p0, c0⟩ := pair
      rw [hA] at herr
      dsimp only at herr
      exact Except.noConfusion herr
    | none =>
      rw [hA] at herr
      dsimp only at herr
      have hcf := gridConnectedB_false_of_astar_none hA
      cases flag with
      | false =>
        simp at herr
        exact ⟨herr.symm, rfl, hcf⟩
      | true =>
        simp only [if_true] at herr
        obtain ⟨pp, cc, hresca, hpp, _, _, _⟩ := gridPartialPath_spec G s g
        rw [hpp] at herr
        dsimp only at herr
        exact Except.noConfusion herr

/-- C6: with the partial flag and an unreachable goal, the request returns
the path to the reachable cell of minimum heuristic distance to the goal;
when that path is nonempty its final cell is strictly closer to the goal
than the start, and it is empty exactly when the start already minimizes the
heuristic over everything reachable. -/
theorem c6_partial_path (G : Grid) (s goal : UVec3) (hwf : G.WF)
    (hnc : gridConnectedB G s goal = false) :
    ∃ p, gridPartialPath G s goal = some p ∧
      Search.IsPath G.nbrs s p (gridClosestApproach G s goal) ∧
      (p ≠ [] →
        gridHeuristic G goal (Search.endOf s p) < gridHeuristic G goal s) ∧
      (p = [] → ∀ v, gridConnectedB G s v = true →
        gridHeuristic G goal s ≤ gridHeuristic G goal v) := by
  obtain ⟨p, c, hres, hpp, hpath, hcost, hmin⟩ := gridPartialPath_spec G s goal
  refine ⟨p, hpp, hpath, ?_, ?_⟩
  · intro hpne
    have hcane : gridClosestApproach G s goal ≠ s := by
      intro hca
      rw [hca] at hmin
      have h0 := hmin [] ((Search.isPath_nil G.nbrs s s).mpr rfl)
      rw [Search.pathCost_nil] at h0
      cases p with
      | nil => exact hpne rfl
      | cons v rest =>
        have hv : v ∈ G.nbrs s :=
          ((Search.isPath_cons G.nbrs s v _ rest).mp hpath).1
        have hvin : v ∈ cellsList G := (mem_grid_nbrs hv).1
        have hc1 : 1 ≤ (G.cells v).cost := hwf v hvin
        rw [Search.pathCost_cons] at hcost
        have hcv : G.cost v = (G.cells v).cost := rfl
        omega
    have hend : Search.endOf s p = gridClosestApproach G s goal := hpath.2
    rw [hend]
    exact Search.closestApproach_strict s hcane
  · intro hpnil
    subst hpnil
    have hca : gridClosestApproach G s goal = s :=
      ((Search.isPath_nil G.nbrs s _).mp hpath).symm
    intro v hv
    have hvr : v ∈ Search.reachableList G.nbrs (cellsList G) s :=
      of_decide_eq_true hv
    have heq : gridHeuristic G goal s =
        gridHeuristic G goal (gridClosestApproach G s goal) := by
      rw [hca]
    rw [heq]
    exact Search.closestApproach_min s v hvr

/-- C6 witness: the blocked corridor, whose closest approach to the
unreachable goal `(3,0,0)` is `(1,0,0)`. -/
theorem c6_partial_path_witness :
    (exampleWallGrid.WF ∧
      gridConnectedB exampleWallGrid (UVec3.new 0 0 0) (UVec3.new 3 0 0) =
        false) ∧
      (∃ p, gridPartialPath exampleWallGrid (UVec3.new 0 0 0)
          (UVec3.new 3 0 0) = some p ∧
        Search.IsPath exampleWallGrid.nbrs (UVec3.new 0 0 0) p
          (gridClosestApproach exampleWallGrid (UVec3.new 0 0 0)
            (UVec3.new 3 0 0)) ∧
        (p ≠ [] →
          gridHeuristic exampleWallGrid (UVec3.new 3 0 0)
              (Search.endOf (UVec3.new 0 0 0) p) <
            gridHeuristic exampleWallGrid (UVec3.new 3 0 0)
              (UVec3.new 0 0 0)) ∧
        (p = [] → ∀ v, gridConnectedB exampleWallGrid (UVec3.new 0 0 0) v =
            true →
          gridHeuristic exampleWallGrid (UVec3.new 3 0 0)
              (UVec3.new 0 0 0) ≤
            gridHeuristic exampleWallGrid (UVec3.new 3 0 0) v)) :=
  ⟨⟨by decide, by decide⟩,
    c6_partial_path exampleWallGrid _ _ (by decide) (by decide)⟩

end BevyNorthstar
